import Mathlib

/-!
Verification of the mpmetrics library (multiprocess-safe Prometheus metrics).

This file gives a shallow embedding, in Lean 4, of the parts of mpmetrics that
the verified claims are about:

* `mpmetrics/util.py` : `_align_mask`, `_align_check`, `align`, `genmask`;
* `mpmetrics/heap.py` : the arena allocator `Heap.malloc`;
* `mpmetrics/atomic.py` : the locking fallback `_Locking.add` and the atomic
  add contracts used by the metrics;
* `mpmetrics/metrics.py` : `_validate_labelname`, `_validate_exemplar`,
  `Counter.inc`/`_sample`, `Summary.observe`/`_sample`,
  `_Histogram.observe`/`_sample`, `LabeledCollector._label_values`/`labels`,
  and `Enum.__init__`.

Modelling conventions:

* Python unbounded non-negative ints are `ℕ`; ints that may be negative are
  `ℤ`.  Machine cells (`uint64`) hold a `ℕ` together with explicit `% 2^64`
  wrapping where the code can wrap.
* Python doubles are modelled by `PyFloat`: an exact rational (`ℚ`) or one of
  `inf`, `-inf`, `nan`.  Rounding of double arithmetic is not modelled (the
  spec brackets this as "within double-precision commutativity").
* Exceptions are modelled with `Except PyErr` or an explicit `Option PyErr`
  paired with the post-state when a claim talks about the state left behind
  by a failed call.  Wall-clock timestamps (`time.time()`) are not modelled.
* Concurrency is not modelled: each Python method is a whole sequential step,
  which is what the claims under verification quantify over.
-/

/-- Kinds of Python exception raised by the embedded code. -/
inductive PyErr
  | valueError
  | overflowError
  | indexError
deriving DecidableEq, Repr

/-- Embedding of `util._align_mask`.  The Python source computes
`(x + mask) & ~mask` on unbounded non-negative ints; its callers always pass
`mask = a - 1` with `a` a power of two (checked by `_align_check` first), and
AND-ing with the complement of a low-bit mask clears the low bits, i.e.
subtracts the remainder modulo `mask + 1`. -/
def _align_mask (x mask : ℕ) : ℕ := (x + mask) - (x + mask) % (mask + 1)

/-- Embedding of `util._align_check`: `if not a or a & (a - 1): raise
ValueError(...)`.  Python truthiness of ints is being non-zero. -/
def _align_check (a : ℕ) : Except PyErr Unit :=
  if a = 0 ∨ a &&& (a - 1) ≠ 0 then .error .valueError else .ok ()

/-- Embedding of `util.align`: check the alignment then mask. -/
def align (x a : ℕ) : Except PyErr ℕ :=
  match _align_check a with
  | .error e => .error e
  | .ok _ => .ok (_align_mask x (a - 1))

/-- Embedding of `util.genmask`.  Its docstring specifies the invariant
`mask == OR of bits lo..hi` which, for `hi ≥ lo`, is `2^(hi+1) - 2^lo`; the
metrics code only calls `genmask(62, 0)`. -/
def genmask (hi lo : ℕ) : ℕ := 2 ^ (hi + 1) - 2 ^ lo

/-- A number in the window `[2^k, 2^(k+1))` has bit `k` set. -/
theorem testBit_true_of_window {n k : ℕ} (h1 : 2 ^ k ≤ n) (h2 : n < 2 ^ (k + 1)) :
    n.testBit k = true := by
  rw [Nat.testBit_to_div_mod]
  have hk : 0 < 2 ^ k := Nat.pos_pow_of_pos k (by norm_num)
  have hdiv : n / 2 ^ k = 1 := by
    apply Nat.div_eq_of_lt_le
    · simpa using h1
    · have : 2 * 2 ^ k = 2 ^ (k + 1) := by ring
      omega
  simp [hdiv]

/-- A power of two AND-ed with its predecessor is zero. -/
theorem two_pow_land_pred (k : ℕ) : 2 ^ k &&& (2 ^ k - 1) = 0 := by
  apply Nat.eq_of_testBit_eq
  intro i
  rw [Nat.testBit_land, Nat.testBit_two_pow, Nat.testBit_two_pow_sub_one, Nat.zero_testBit]
  by_cases h : k = i <;> simp [h]

/-- Conversely, a non-zero number that is not a power of two shares a bit with
its predecessor: the `a & (a - 1)` test in `_align_check` is exact. -/
theorem land_pred_ne_zero {a : ℕ} (ha : a ≠ 0) (h : ∀ k, a ≠ 2 ^ k) :
    a &&& (a - 1) ≠ 0 := by
  intro hz
  set k := Nat.log 2 a with hk
  have h1 : 2 ^ k ≤ a := Nat.pow_log_le_self 2 ha
  have h2 : a < 2 ^ (k + 1) := Nat.lt_pow_succ_log_self (by norm_num) a
  have hne : 2 ^ k < a := lt_of_le_of_ne h1 (fun he => h k he.symm)
  have hb1 : a.testBit k = true := testBit_true_of_window h1 h2
  have hb2 : (a - 1).testBit k = true := by
    apply testBit_true_of_window <;> omega
  have : (a &&& (a - 1)).testBit k = true := by
    rw [Nat.testBit_land, hb1, hb2]; rfl
  rw [hz, Nat.zero_testBit] at this
  exact Bool.false_ne_true this

/-- `_align_check` accepts exactly the powers of two. -/
theorem _align_check_pow2 (k : ℕ) : _align_check (2 ^ k) = .ok () := by
  have hz : (2 : ℕ) ^ k ≠ 0 := (Nat.pos_pow_of_pos k (by norm_num)).ne'
  simp [_align_check, two_pow_land_pred, hz]

/-- `_align_check` raises `ValueError` on zero and non-powers of two. -/
theorem _align_check_err {a : ℕ} (h : a = 0 ∨ ∀ k, a ≠ 2 ^ k) :
    _align_check a = .error .valueError := by
  rcases h with h | h
  · simp [_align_check, h]
  · rcases Nat.eq_zero_or_pos a with h0 | h0
    · simp [_align_check, h0]
    · simp [_align_check, land_pred_ne_zero h0.ne' h]

/-- The mask step returns a multiple of `2^k`. -/
theorem _align_mask_mod (x k : ℕ) : _align_mask x (2 ^ k - 1) % 2 ^ k = 0 := by
  have hp : 0 < 2 ^ k := Nat.pos_pow_of_pos k (by norm_num)
  have hs : 2 ^ k - 1 + 1 = 2 ^ k := Nat.succ_pred_eq_of_pos hp
  unfold _align_mask
  rw [hs]
  have hd := Nat.div_add_mod (x + (2 ^ k - 1)) (2 ^ k)
  have : x + (2 ^ k - 1) - (x + (2 ^ k - 1)) % 2 ^ k = 2 ^ k * ((x + (2 ^ k - 1)) / 2 ^ k) := by
    omega
  rw [this, Nat.mul_mod_right]

/-- The mask step only moves up. -/
theorem le_align_mask (x k : ℕ) : x ≤ _align_mask x (2 ^ k - 1) := by
  have hp : 0 < 2 ^ k := Nat.pos_pow_of_pos k (by norm_num)
  have hs : 2 ^ k - 1 + 1 = 2 ^ k := Nat.succ_pred_eq_of_pos hp
  unfold _align_mask
  rw [hs]
  have := Nat.mod_lt (x + (2 ^ k - 1)) hp
  omega

/-- The mask step moves up by less than one alignment. -/
theorem align_mask_lt (x k : ℕ) : _align_mask x (2 ^ k - 1) < x + 2 ^ k := by
  have hp : 0 < 2 ^ k := Nat.pos_pow_of_pos k (by norm_num)
  have hs : 2 ^ k - 1 + 1 = 2 ^ k := Nat.succ_pred_eq_of_pos hp
  unfold _align_mask
  rw [hs]
  omega

/-- The mask step is the least aligned value at or above `x`. -/
theorem align_mask_le {x m k : ℕ} (hm : m % 2 ^ k = 0) (hx : x ≤ m) :
    _align_mask x (2 ^ k - 1) ≤ m := by
  have hp : 0 < 2 ^ k := Nat.pos_pow_of_pos k (by norm_num)
  by_contra hlt
  push_neg at hlt
  obtain ⟨u, hu⟩ := Nat.dvd_of_mod_eq_zero (_align_mask_mod x k)
  obtain ⟨v, hv⟩ := Nat.dvd_of_mod_eq_zero hm
  have hvu : v < u := by
    have := hlt
    rw [hu, hv] at this
    exact lt_of_mul_lt_mul_left this (Nat.zero_le _)
  have : m + 2 ^ k ≤ _align_mask x (2 ^ k - 1) := by
    rw [hu, hv]
    have : v + 1 ≤ u := hvu
    calc 2 ^ k * v + 2 ^ k = 2 ^ k * (v + 1) := by ring
    _ ≤ 2 ^ k * u := Nat.mul_le_mul_left _ this
  have := align_mask_lt x k
  omega

/-- Aligning an already aligned value is the identity. -/
theorem align_mask_eq_self {x k : ℕ} (hx : x % 2 ^ k = 0) :
    _align_mask x (2 ^ k - 1) = x :=
  le_antisymm (align_mask_le hx le_rfl) (le_align_mask x k)

/-- `align` on a power of two never raises and returns the mask step. -/
theorem align_pow2 (x k : ℕ) : align x (2 ^ k) = .ok (_align_mask x (2 ^ k - 1)) := by
  simp [align, _align_check_pow2]

/-- C10: for every `x ≥ 0` and every `a` that is a power of two, `align(x, a)`
returns the smallest multiple of `a` greater than or equal to `x` (in
particular `align(x, a) = x` when `x` is already a multiple of `a`), and
`align` raises `ValueError` for every `a` that is zero or not a power of
two. -/
theorem align_spec_C10 (x a k : ℕ) :
    (a = 2 ^ k →
      align x a = .ok (_align_mask x (a - 1)) ∧
      _align_mask x (a - 1) % a = 0 ∧
      x ≤ _align_mask x (a - 1) ∧
      (∀ m, m % a = 0 → x ≤ m → _align_mask x (a - 1) ≤ m) ∧
      (x % a = 0 → _align_mask x (a - 1) = x)) ∧
    ((a = 0 ∨ ∀ j, a ≠ 2 ^ j) → align x a = .error .valueError) := by
  constructor
  · rintro rfl
    exact ⟨align_pow2 x k, _align_mask_mod x k, le_align_mask x k,
      fun m hm hx => align_mask_le hm hx, fun hx => align_mask_eq_self hx⟩
  · intro h
    simp [align, _align_check_err h]

/-- Witness for C10 at `x = 5`, `a = 4` (smallest multiple of 4 at or above 5
is 8) and at the non-power-of-two `a = 3`. -/
theorem align_spec_C10_witness :
    align 5 4 = .ok 8 ∧ (8 : ℕ) % 4 = 0 ∧ 5 ≤ 8 ∧ align 5 3 = .error .valueError := by
  have h3 : ∀ j : ℕ, (3 : ℕ) ≠ 2 ^ j := by
    intro j
    match j with
    | 0 => decide
    | 1 => decide
    | (j + 2) =>
      have h4 : 2 ^ (j + 2) = 4 * 2 ^ j := by ring
      have h1 : 1 ≤ 2 ^ j := Nat.one_le_two_pow
      omega
  have h := (align_spec_C10 5 4 2).1 (by norm_num)
  have he : _align_mask 5 (4 - 1) = 8 := by decide
  refine ⟨?_, by decide, by decide, (align_spec_C10 5 3 0).2 (Or.inr h3)⟩
  rw [h.1, he]

/-- Total version of `align` for power-of-two alignments, used in statements:
`alignUp x a = _align_mask x (a - 1)`, the value `align x a` returns when `a`
is a valid alignment. -/
def alignUp (x a : ℕ) : ℕ := _align_mask x (a - 1)

/-- A block returned by `Heap.malloc`: offset and size within the arena file. -/
structure Block where
  start : ℕ
  size : ℕ
deriving DecidableEq, Repr

/-- Shared allocator state: `base` is the next free offset (`Heap._base`);
`flen` is the current length of the backing file (initially `map_size`, from
`os.truncate` in `Heap.__init__`, and set by each `os.ftruncate`). -/
structure HeapSt where
  base : ℕ
  flen : ℕ
deriving DecidableEq, Repr

/-- Embedding of `Heap.malloc` for a heap with page granularity `map_size`.
Returns the block, the new state, and `some n` when the code called
`os.ftruncate(fd, n)`.  Negative `size` requests, rejected by the source's
`size <= 0` check, are outside the `ℕ` domain; `size = 0` is rejected as in
the source. -/
def Heap.malloc (map_size : ℕ) (st : HeapSt) (size alignment : ℕ) :
    Except PyErr (Block × HeapSt × Option ℕ) :=
  if size = 0 then .error .valueError else
  match if map_size < size then align size map_size else .ok size with
  | .error e => .error e
  | .ok size =>
    match _align_check alignment with
    | .error e => .error e
    | .ok _ =>
      match align st.base map_size, align st.base alignment with
      | .ok total, .ok base1 =>
        if total ≤ base1 + size then
          match align (total + size) map_size with
          | .ok newLen => .ok (⟨total, size⟩, ⟨total + size, newLen⟩, some newLen)
          | .error e => .error e
        else .ok (⟨base1, size⟩, ⟨base1 + size, st.flen⟩, none)
      | .error e, _ => .error e
      | _, .error e => .error e

/-- Embedding of a sequence of `Heap.malloc` calls, collecting the returned
blocks. -/
def Heap.runMallocs (map_size : ℕ) : HeapSt → List (ℕ × ℕ) → Except PyErr (List Block × HeapSt)
  | st, [] => .ok ([], st)
  | st, (sz, al) :: rest =>
    match Heap.malloc map_size st sz al with
    | .error e => .error e
    | .ok (blk, st', _) =>
      match Heap.runMallocs map_size st' rest with
      | .error e => .error e
      | .ok (blks, stf) => .ok (blk :: blks, stf)

/-- Evaluation of `Heap.malloc` for power-of-two `map_size` and alignment:
no exception is raised and the result follows the two-branch shape of the
source. -/
theorem Heap.malloc_eq (m k : ℕ) (st : HeapSt) (size : ℕ) (hs : size ≠ 0) :
    Heap.malloc (2 ^ m) st size (2 ^ k) =
      (let size' := if 2 ^ m < size then alignUp size (2 ^ m) else size
       let total := alignUp st.base (2 ^ m)
       let base1 := alignUp st.base (2 ^ k)
       if total ≤ base1 + size' then
         .ok (⟨total, size'⟩, ⟨total + size', alignUp (total + size') (2 ^ m)⟩,
           some (alignUp (total + size') (2 ^ m)))
       else .ok (⟨base1, size'⟩, ⟨base1 + size', st.flen⟩, none)) := by
  by_cases hc : 2 ^ m < size <;>
    simp [Heap.malloc, hs, hc, align_pow2, _align_check_pow2, alignUp]

/-- C3 (amended): for a heap state with free offset `base` and a request
`malloc(size, alignment)` with `0 < size ≤ map_size` and power-of-two
alignment, the returned start equals the candidate
`align_up(base, alignment)` when `candidate + size` is strictly below the
next boundary `align_up(base, map_size)`, and equals the boundary when
`candidate + size` reaches OR crosses it (the code compares with `>=`, not
the claimed strict `>`).  `ftruncate` is called exactly in the boundary
branch; under the reachable-state invariant `flen = align_up(base,
map_size)` this happens exactly when `candidate + size` reaches or passes
the current file length, and every such call strictly extends the file. -/
theorem malloc_boundary_C3 (m k : ℕ) (st : HeapSt) (size : ℕ)
    (h0 : 0 < size) (hsz : size ≤ 2 ^ m)
    (hinv : st.flen = alignUp st.base (2 ^ m)) :
    ∃ blk st' ftr, Heap.malloc (2 ^ m) st size (2 ^ k) = .ok (blk, st', ftr) ∧
      blk.start = (if alignUp st.base (2 ^ m) ≤ alignUp st.base (2 ^ k) + size
        then alignUp st.base (2 ^ m) else alignUp st.base (2 ^ k)) ∧
      blk.size = size ∧
      ((ftr ≠ none) ↔ st.flen ≤ alignUp st.base (2 ^ k) + size) ∧
      (∀ L, ftr = some L → st.flen < L ∧ L = alignUp (alignUp st.base (2 ^ m) + size) (2 ^ m)) := by
  have hnc : ¬ 2 ^ m < size := not_lt.mpr hsz
  rw [Heap.malloc_eq m k st size h0.ne']
  simp only [hnc, if_false]
  by_cases hb : alignUp st.base (2 ^ m) ≤ alignUp st.base (2 ^ k) + size
  · refine ⟨⟨alignUp st.base (2 ^ m), size⟩,
      ⟨alignUp st.base (2 ^ m) + size, alignUp (alignUp st.base (2 ^ m) + size) (2 ^ m)⟩,
      some (alignUp (alignUp st.base (2 ^ m) + size) (2 ^ m)),
      by simp [hb], by simp [hb], rfl, ?_, ?_⟩
    · simp [hinv, hb]
    · intro L hL
      simp only [Option.some.injEq] at hL
      subst hL
      constructor
      · have h1 : alignUp st.base (2 ^ m) + size ≤ alignUp (alignUp st.base (2 ^ m) + size) (2 ^ m) :=
          le_align_mask _ m
        omega
      · rfl
  · refine ⟨⟨alignUp st.base (2 ^ k), size⟩, ⟨alignUp st.base (2 ^ k) + size, st.flen⟩, none,
      by simp [hb], by simp [hb], rfl, ?_, ?_⟩
    · simp [hinv, hb]
    · intro L hL
      simp at hL

/-- Witness for C3: fresh-like state (base 48, file length 4096), map_size
4096, `malloc(100, 64)`: the candidate 64 plus 100 stays below the boundary
4096, so the block starts at 64 and no `ftruncate` happens. -/
theorem malloc_boundary_C3_witness :
    ∃ blk st' ftr, Heap.malloc (2 ^ 12) ⟨48, 4096⟩ 100 (2 ^ 6) = .ok (blk, st', ftr) ∧
      blk.start = (if alignUp 48 (2 ^ 12) ≤ alignUp 48 (2 ^ 6) + 100
        then alignUp 48 (2 ^ 12) else alignUp 48 (2 ^ 6)) ∧
      blk.size = 100 ∧
      ((ftr ≠ none) ↔ (4096 : ℕ) ≤ alignUp 48 (2 ^ 6) + 100) ∧
      (∀ L, ftr = some L → (4096 : ℕ) < L ∧ L = alignUp (alignUp 48 (2 ^ 12) + 100) (2 ^ 12)) :=
  malloc_boundary_C3 12 6 ⟨48, 4096⟩ 100 (by decide) (by decide) (by decide)

/-- Decidable equality for `Except`, used to evaluate concrete runs. -/
instance instDecidableEqExcept {e a : Type} [DecidableEq e] [DecidableEq a] :
    DecidableEq (Except e a) := fun x y =>
  match x, y with
  | .ok u, .ok v =>
    if h : u = v then isTrue (by rw [h]) else isFalse (fun he => h (Except.ok.inj he))
  | .error u, .error v =>
    if h : u = v then isTrue (by rw [h]) else isFalse (fun he => h (Except.error.inj he))
  | .ok _, .error _ => isFalse (fun he => Except.noConfusion he)
  | .error _, .ok _ => isFalse (fun he => Except.noConfusion he)

/-- C3 counterexample: with `map_size = 4096`, free offset 100 and file
length 4096, the request `malloc(3996, 1)` has candidate
`align_up(100, 1) = 100` and boundary `align_up(100, 4096) = 4096`;
`100 + 3996 = 4096` does NOT exceed the boundary, so the claim predicts
start 100 and no file growth, yet the code returns start 4096 and
`ftruncate`s the file from 4096 to 8192. -/
theorem malloc_boundary_C3_cex :
    Heap.malloc 4096 ⟨100, 4096⟩ 3996 1 =
      .ok (⟨4096, 3996⟩, ⟨8092, 8192⟩, some 8192) ∧
    alignUp 100 1 = 100 ∧ alignUp 100 4096 = 4096 ∧
    ¬ (100 + 3996 > 4096) ∧ (4096 : ℕ) ≠ 100 ∧ (4096 : ℕ) < 8192 := by decide

/-- Properties claimed for a block returned for request `req = (size,
alignment)` on a heap of page size `2^m`: aligned start; for small requests
the exact size and no `map_size`-boundary crossing (the block lies in a
single page window); for large requests at least the requested size, rounded
to a page multiple. -/
def BlockOk (m : ℕ) (req : ℕ × ℕ) (b : Block) : Prop :=
  b.start % req.2 = 0 ∧
  (req.1 ≤ 2 ^ m → b.size = req.1 ∧ b.start / 2 ^ m = (b.start + b.size - 1) / 2 ^ m) ∧
  (2 ^ m < req.1 → req.1 ≤ b.size ∧ b.size % 2 ^ m = 0)

/-- Quotient of a value lying in the window `[p*t, p*(t+1))`. -/
theorem div_window {p t x : ℕ} (h1 : p * t ≤ x) (h2 : x < p * (t + 1)) :
    x / p = t := by
  apply Nat.div_eq_of_lt_le
  · rw [Nat.mul_comm]; exact h1
  · rw [Nat.mul_comm]
    exact h2

/-- A multiple of a divisor of `n` has zero remainder mod the divisor. -/
theorem mod_eq_zero_of_dvd_of_mod_eq_zero {a n x : ℕ} (hd : a ∣ n) (hx : x % n = 0) :
    x % a = 0 := by
  obtain ⟨c, rfl⟩ := hd
  obtain ⟨d, rfl⟩ := Nat.dvd_of_mod_eq_zero hx
  rw [Nat.mul_assoc, Nat.mul_mod_right]

/-- One `malloc` call with a power-of-two alignment bounded by the page size
returns a block with the C4 properties, starting at or after the old free
offset, and leaves the free offset exactly at the block's end. -/
theorem malloc_step_ok (m k : ℕ) (st : HeapSt) (size : ℕ) (h0 : 0 < size)
    (hkm : (2 : ℕ) ^ k ≤ 2 ^ m) :
    ∃ blk st' ftr, Heap.malloc (2 ^ m) st size (2 ^ k) = .ok (blk, st', ftr) ∧
      BlockOk m (size, 2 ^ k) blk ∧ st.base ≤ blk.start ∧ st'.base = blk.start + blk.size := by
  have hm : (0 : ℕ) < 2 ^ m := Nat.pos_pow_of_pos m (by norm_num)
  have hk2 : (0 : ℕ) < 2 ^ k := Nat.pos_pow_of_pos k (by norm_num)
  have hkdvd : (2 : ℕ) ^ k ∣ 2 ^ m := by
    have hkm2 : k ≤ m := by
      by_contra hc
      push_neg at hc
      have := Nat.pow_lt_pow_right (a := 2) (by norm_num) hc
      omega
    exact pow_dvd_pow 2 hkm2
  rw [Heap.malloc_eq m k st size h0.ne']
  set size' := if 2 ^ m < size then alignUp size (2 ^ m) else size with hsz
  set total := alignUp st.base (2 ^ m) with htot
  set base1 := alignUp st.base (2 ^ k) with hb1
  have hsize' : size ≤ size' := by
    rw [hsz]
    split
    · exact le_align_mask size m
    · exact le_rfl
  have hsmall_eq : size ≤ 2 ^ m → size' = size := by
    intro h
    rw [hsz, if_neg (not_lt.mpr h)]
  have hlarge : 2 ^ m < size → size ≤ size' ∧ size' % 2 ^ m = 0 := by
    intro h
    rw [hsz, if_pos h]
    exact ⟨le_align_mask size m, _align_mask_mod size m⟩
  have htmod : total % 2 ^ m = 0 := _align_mask_mod st.base m
  have htmodk : total % 2 ^ k = 0 := mod_eq_zero_of_dvd_of_mod_eq_zero hkdvd htmod
  have hb1mod : base1 % 2 ^ k = 0 := _align_mask_mod st.base k
  have hbase_le_b1 : st.base ≤ base1 := le_align_mask st.base k
  have hbase_le_t : st.base ≤ total := le_align_mask st.base m
  by_cases hbr : total ≤ base1 + size'
  · refine ⟨⟨total, size'⟩, ⟨total + size', alignUp (total + size') (2 ^ m)⟩,
      some (alignUp (total + size') (2 ^ m)),
      by simp [hbr], ⟨htmodk, ?_, fun h => hlarge h⟩, hbase_le_t, rfl⟩
    intro h
    refine ⟨hsmall_eq h, ?_⟩
    obtain ⟨t, ht⟩ := Nat.dvd_of_mod_eq_zero htmod
    have hse : size' = size := hsmall_eq h
    have hPQ : 2 ^ m * (t + 1) = 2 ^ m * t + 2 ^ m := by ring
    have e1 : total / 2 ^ m = t := div_window (by omega) (by omega)
    have e2 : (total + size' - 1) / 2 ^ m = t := div_window (by omega) (by omega)
    simp only []
    omega
  · push_neg at hbr
    refine ⟨⟨base1, size'⟩, ⟨base1 + size', st.flen⟩, none,
      by simp [not_le.mpr hbr], ⟨hb1mod, ?_, fun h => hlarge h⟩, hbase_le_b1, rfl⟩
    intro h
    refine ⟨hsmall_eq h, ?_⟩
    set t := st.base / 2 ^ m with htdef
    have hdm : 2 ^ m * t + st.base % 2 ^ m = st.base := by
      rw [htdef]
      exact Nat.div_add_mod st.base (2 ^ m)
    have hmod_lt : st.base % 2 ^ m < 2 ^ m := Nat.mod_lt _ hm
    have hPQ : 2 ^ m * (t + 1) = 2 ^ m * t + 2 ^ m := by ring
    have htQ : total ≤ 2 ^ m * (t + 1) :=
      align_mask_le (Nat.mul_mod_right _ _) (by omega)
    have hlo : 2 ^ m * t ≤ base1 := le_trans (by omega) hbase_le_b1
    have e1 : base1 / 2 ^ m = t := div_window (by omega) (by omega)
    have e2 : (base1 + size' - 1) / 2 ^ m = t := div_window (by omega) (by omega)
    simp only []
    omega

/-- C4 (amended): for every sequence of `malloc(size, alignment)` requests
with `size > 0` and `alignment` a power of two NOT exceeding `map_size`
(the amendment: for `alignment > map_size` the returned start is only
`map_size`-aligned, see the counterexample), starting from any heap state
(in particular a fresh one): no request fails, the returned blocks are
pairwise disjoint (in fact consecutive and ordered), each start is aligned
to its request, each size equals the requested size when `size ≤ map_size`
(and then the block does not cross a `map_size` boundary) and otherwise is
at least the requested size and `map_size`-aligned. -/
theorem malloc_run_C4 (m : ℕ) (reqs : List (ℕ × ℕ))
    (hreq : ∀ r ∈ reqs, 0 < r.1 ∧ ∃ k, r.2 = 2 ^ k ∧ r.2 ≤ 2 ^ m) :
    ∀ st : HeapSt,
    ∃ blks stf, Heap.runMallocs (2 ^ m) st reqs = .ok (blks, stf) ∧
      List.Forall₂ (BlockOk m) reqs blks ∧
      st.base ≤ stf.base ∧
      (∀ b ∈ blks, st.base ≤ b.start ∧ b.start + b.size ≤ stf.base) ∧
      blks.Pairwise (fun b1 b2 => b1.start + b1.size ≤ b2.start) := by
  induction reqs with
  | nil =>
    intro st
    exact ⟨[], st, rfl, .nil, le_rfl, by simp, .nil⟩
  | cons r rest ih =>
    obtain ⟨r1, r2⟩ := r
    intro st
    obtain ⟨h0, k, hk, hkm0⟩ := hreq (r1, r2) (List.mem_cons_self _ rest)
    have hrest : ∀ r ∈ rest, 0 < r.1 ∧ ∃ k, r.2 = 2 ^ k ∧ r.2 ≤ 2 ^ m :=
      fun r hr => hreq r (List.mem_cons_of_mem _ hr)
    simp only at h0 hk hkm0
    subst hk
    obtain ⟨blk, st', ftr, hstep, hok, hble, hbase'⟩ := malloc_step_ok m k st r1 h0 hkm0
    obtain ⟨blks, stf, hrun, hfa, hmono, hmem, hpw⟩ := ih hrest st'
    refine ⟨blk :: blks, stf, ?_, List.Forall₂.cons hok hfa, by omega, ?_, ?_⟩
    · simp only [Heap.runMallocs, hstep, hrun]
    · intro b hb
      rcases List.mem_cons.mp hb with rfl | hb
      · exact ⟨hble, by omega⟩
      · have := hmem b hb
        omega
    · refine List.Pairwise.cons ?_ hpw
      intro b hb
      have := hmem b hb
      omega

/-- Modelled from the spec: "The first `sizeof(InterprocessLock) +
sizeof(usize)` bytes of the file hold the arena's own metadata; `shared_base`
begins equal to that header size."  The interprocess lock lives in `lock.c`,
a C source that is not part of the Python sources under verification; we
model its size as 40 bytes, so the `Struct`-computed header (lock followed by
an 8-byte `Size_t`) is 48 bytes.  The violation exhibited in
`malloc_run_C4_cex` holds for every header size in `(0, map_size]`.  The
initial file length is `map_size` (from `os.truncate` in `Heap.__init__`). -/
def Heap.fresh (map_size : ℕ) : HeapSt := ⟨48, map_size⟩

/-- Witness for C4: two requests on a fresh 4096-byte-page heap. -/
theorem malloc_run_C4_witness :
    ∃ blks stf, Heap.runMallocs (2 ^ 12) (Heap.fresh (2 ^ 12)) [(100, 2 ^ 6), (5000, 2 ^ 0)] =
        .ok (blks, stf) ∧
      List.Forall₂ (BlockOk 12) [(100, 2 ^ 6), (5000, 2 ^ 0)] blks ∧
      (Heap.fresh (2 ^ 12)).base ≤ stf.base ∧
      (∀ b ∈ blks, (Heap.fresh (2 ^ 12)).base ≤ b.start ∧ b.start + b.size ≤ stf.base) ∧
      blks.Pairwise (fun b1 b2 => b1.start + b1.size ≤ b2.start) := by
  apply malloc_run_C4 12 [(100, 2 ^ 6), (5000, 2 ^ 0)]
  intro r hr
  rcases List.mem_cons.mp hr with rfl | hr
  · exact ⟨by norm_num, 6, rfl, by norm_num⟩
  rcases List.mem_cons.mp hr with rfl | hr
  · exact ⟨by norm_num, 0, rfl, by norm_num⟩
  · cases hr

/-- C4 counterexample: on a fresh heap with `map_size = 4096`, the single
request `malloc(1, 8192)` — size positive, alignment `2^13` a power of two —
returns the block starting at offset 4096, which is not a multiple of the
requested alignment 8192.  (The code takes the boundary branch and the
boundary is only `map_size`-aligned.) -/
theorem malloc_run_C4_cex :
    Heap.runMallocs 4096 (Heap.fresh 4096) [(1, 8192)] =
      .ok ([⟨4096, 1⟩], ⟨4097, 8192⟩) ∧ (4096 : ℕ) % 8192 ≠ 0 := by decide

/-- Python float values: an exact rational standing for a finite double, or
one of the special values.  Double rounding is not modelled. -/
inductive PyFloat
  | fin (q : ℚ)
  | inf
  | ninf
  | nan
deriving DecidableEq, Repr, Inhabited

/-- Python `<` on floats: any comparison with `nan` is false, `-inf` is below
everything else, `inf` above everything else. -/
def PyFloat.lt : PyFloat → PyFloat → Bool
  | .fin p, .fin q => p < q
  | .fin _, .inf => true
  | .ninf, .fin _ => true
  | .ninf, .inf => true
  | _, _ => false

/-- Python `+` on floats (exact on finite values): `nan` is absorbing,
opposite infinities produce `nan`, an infinity absorbs finite values. -/
def PyFloat.add : PyFloat → PyFloat → PyFloat
  | .nan, _ => .nan
  | _, .nan => .nan
  | .inf, .ninf => .nan
  | .ninf, .inf => .nan
  | .inf, _ => .inf
  | _, .inf => .inf
  | .ninf, _ => .ninf
  | _, .ninf => .ninf
  | .fin p, .fin q => .fin (p + q)

/-- Test for `nan`. -/
def PyFloat.isNan : PyFloat → Bool
  | .nan => true
  | _ => false

/-- Test for a finite value. -/
def PyFloat.isFinite : PyFloat → Bool
  | .fin _ => true
  | _ => false

/-- Adding finite values stays finite and is exact addition. -/
theorem PyFloat.add_fin (p q : ℚ) : PyFloat.add (.fin p) (.fin q) = .fin (p + q) := rfl

/-- The `AtomicUInt64.add` contract with `raise_on_overflow=True` (the
default).  Modelled from the spec: the native atomics live in `atomic.c`,
which is not part of the Python sources; per spec §4.3 the operation returns
the prior value and, on overflow past `2^64`, appears not to have occurred
and raises `OverflowError` (the repo's `test_uadd`/`test_iadd` confirm the
raise).  The result here is the new stored value. -/
def AtomicUInt64.add (v amount : ℕ) : Except PyErr ℕ :=
  if v + amount < 2 ^ 64 then .ok (v + amount) else .error .overflowError

/-- The `AtomicUInt64.add` contract with `raise_on_overflow=False`: the sum
wraps modulo `2^64`.  Modelled from the spec (`atomic.c` not in sources). -/
def AtomicUInt64.addWrap (v amount : ℕ) : ℕ := (v + amount) % 2 ^ 64

/-- The `AtomicDouble.add` contract with `raise_on_overflow=True` (the
default).  Modelled from the spec §4.3: overflow for doubles is NaN
production, and on overflow the operation raises.  The metrics only add
finite values where this never fires. -/
def AtomicDouble.add (v amount : PyFloat) : Except PyErr PyFloat :=
  if (v.add amount).isNan then .error .overflowError else .ok (v.add amount)

/-- Embedding of the locking fallback `_Locking.add` for `LockingUInt64`
(`atomic.py`): under the lock the code reads `old`, stores `old + amount`
into the ctypes `c_uint64` cell — which truncates modulo `2^64` with no
overflow checking — and only then compares the stored cell with the exact
sum, raising `OverflowError` without restoring the old value.  Returns
`(exception?, stored value after the call, returned value)`; the source
returns `old` when it does not raise. -/
def LockingUInt64.add (old amount : ℕ) (raise_on_overflow : Bool) :
    Option PyErr × ℕ × ℕ :=
  let stored := (old + amount) % 2 ^ 64
  if raise_on_overflow && decide (stored ≠ old + amount) then
    (some .overflowError, stored, old)
  else
    (none, stored, old)

/-- C2 (code bug): `LockingUInt64` holding 1, `add(2^64 - 1,
raise_on_overflow=True)`: the call raises `OverflowError`, but a subsequent
`get()` returns the wrapped value 0, not the prior value 1 — the store
happens before the overflow check and is not rolled back, so the value does
NOT appear unchanged.  (When no overflow occurs the claim's other direction
does hold: the third component shows the prior value is returned and the
second the exact sum is stored.) -/
theorem locking_add_overflow_C2 :
    LockingUInt64.add 1 (2 ^ 64 - 1) true = (some .overflowError, 0, 1) ∧
    (0 : ℕ) ≠ 1 ∧
    LockingUInt64.add 1 2 true = (none, 3, 1) := by decide

/-- ASCII letter test, for the label-name pattern. -/
def isAsciiLetter (c : Char) : Bool := ('a' ≤ c && c ≤ 'z') || ('A' ≤ c && c ≤ 'Z')

/-- ASCII digit test, for the label-name pattern. -/
def isAsciiDigit (c : Char) : Bool := '0' ≤ c && c ≤ '9'

/-- Modelled from the spec: label names follow the OpenMetrics rule; the code
uses prometheus_client's `METRIC_LABEL_NAME_RE`, the anchored pattern
`[a-zA-Z_][a-zA-Z0-9_]*` (an external library constant). -/
def labelNameMatch (s : String) : Bool :=
  match s.data with
  | [] => false
  | c :: cs =>
    (isAsciiLetter c || c = '_') && cs.all (fun d => isAsciiLetter d || isAsciiDigit d || d = '_')

/-- Modelled from the spec: names starting with `__` are reserved; the code
uses prometheus_client's `RESERVED_METRIC_LABEL_NAME_RE`, the pattern
`__.*`. -/
def labelNameReserved (s : String) : Bool :=
  match s.data with
  | '_' :: '_' :: _ => true
  | _ => false

/-- Embedding of `metrics._validate_labelname`: reject a label that does not
match the name pattern, then reject reserved (`__`-prefixed) labels. -/
def _validate_labelname (label : String) : Except PyErr Unit :=
  if ¬ labelNameMatch label then .error .valueError
  else if labelNameReserved label then .error .valueError
  else .ok ()

/-- The loop of `metrics._validate_exemplar`: validate each key and total up
the code points of keys and values (`String.length` counts code points, like
Python `len`). -/
def _validate_exemplar_loop : List (String × String) → ℕ → Except PyErr ℕ
  | [], cp => .ok cp
  | (k, v) :: rest, cp =>
    match _validate_labelname k with
    | .error e => .error e
    | .ok _ => _validate_exemplar_loop rest (cp + k.length + v.length)

/-- Embedding of `metrics._validate_exemplar`: an exemplar is a dict,
modelled as its (unique-keyed, insertion-ordered) item list; raise
`ValueError` when more than 128 code points are used in total. -/
def _validate_exemplar (exemplar : List (String × String)) : Except PyErr Unit :=
  match _validate_exemplar_loop exemplar 0 with
  | .error e => .error e
  | .ok cp => if 128 < cp then .error .valueError else .ok ()

/-- Shared state of a `Counter` (`metrics.Counter._fields_`), without the
wall-clock cells `_created` and `_exemplar_timestamp`, which the claims do
not mention.  `exemplar_amount` is a `UInt64` ctypes cell. -/
structure CounterSt where
  total : ℕ
  exemplar_amount : ℕ
  exemplar_labels : List (String × String)
deriving DecidableEq, Repr

/-- Embedding of `Counter.inc`: reject negative amounts, validate the
exemplar if supplied, atomically add to `total`, then (under the lock)
replace the exemplar cells.  Returns the exception, if any, with the
post-call state; on the native-atomics overflow path the total appears
unchanged (modelled from the spec, `atomic.c` not in sources). -/
def Counter.inc (st : CounterSt) (amount : ℤ) (exemplar : Option (List (String × String))) :
    Option PyErr × CounterSt :=
  if amount < 0 then (some .valueError, st)
  else
    match (match exemplar with | some ex => _validate_exemplar ex | none => .ok ()) with
    | .error e => (some e, st)
    | .ok _ =>
      match AtomicUInt64.add st.total amount.toNat with
      | .error e => (some e, st)
      | .ok t =>
        match exemplar with
        | some ex =>
          (none, { total := t, exemplar_amount := amount.toNat % 2 ^ 64, exemplar_labels := ex })
        | none => (none, { st with total := t })

/-- The `_total` sample emitted by `Counter._sample`:
`add_sample('_total', self._total.get(), ...)`. -/
def Counter.sampleTotal (st : CounterSt) : ℕ := st.total

/-- C6: on a fresh counter, `inc()` then `inc(7)` gives a sampled `_total` of
8; `inc(-1)` raises `ValueError` and leaves the total unchanged;
`inc(2^64 - 1)` on the counter whose total is now 8 (nonzero) raises
`OverflowError`.  The increment is checked non-negative and applied as an
unsigned 64-bit atomic add. -/
theorem counter_scenario_C6 :
    Counter.inc ⟨0, 0, []⟩ 1 none = (none, ⟨1, 0, []⟩) ∧
    Counter.inc ⟨1, 0, []⟩ 7 none = (none, ⟨8, 0, []⟩) ∧
    Counter.sampleTotal ⟨8, 0, []⟩ = 8 ∧
    Counter.inc ⟨8, 0, []⟩ (-1) none = (some .valueError, ⟨8, 0, []⟩) ∧
    Counter.inc ⟨8, 0, []⟩ (2 ^ 64 - 1) none = (some .overflowError, ⟨8, 0, []⟩) := by
  decide

/-- One data buffer of a Summary (`_SummaryData`): `sum` and `count`. -/
structure SummaryData where
  sum : PyFloat
  count : ℕ
deriving DecidableEq, Repr

/-- Shared state of a `Summary` (without the wall-clock `_created`): the two
data buffers `_data[0]`, `_data[1]` and the ticket counter `_count` whose
bit 63 selects the hot buffer. -/
structure SummarySt where
  d0 : SummaryData
  d1 : SummaryData
  count : ℕ
deriving DecidableEq, Repr

/-- A fresh Summary: every ctypes cell is zero-initialized. -/
def SummarySt.init : SummarySt := ⟨⟨.fin 0, 0⟩, ⟨.fin 0, 0⟩, 0⟩

/-- Python indexing into the 2-element `Array[_, 2]`: valid indices are
0, 1 and the negative indices -1, -2 (resolved from the end), as used by
`self._data[~count >> 63]` in `_sample`. -/
def pyIdx2 (i : ℤ) : Option (Fin 2) :=
  if i = 0 ∨ i = -2 then some 0
  else if i = 1 ∨ i = -1 then some 1
  else none

/-- Buffer selection. -/
def SummarySt.data (st : SummarySt) : Fin 2 → SummaryData
  | 0 => st.d0
  | 1 => st.d1

/-- Buffer update. -/
def SummarySt.setData (st : SummarySt) : Fin 2 → SummaryData → SummarySt
  | 0, d => { st with d0 := d }
  | 1, d => { st with d1 := d }

/-- Embedding of `Summary.observe`: take a ticket (`self._count.add(1)`
returns the prior value), select `self._data[ticket >> 63]`, then
`sum.add(amount)` and `count.add(1)` on that buffer.  An exception (never
reached under the theorems' hypotheses) is reported without tracking the
partially-updated state, which no claim mentions. -/
def Summary.observe (st : SummarySt) (amount : PyFloat) : Except PyErr SummarySt :=
  match AtomicUInt64.add st.count 1 with
  | .error e => .error e
  | .ok c' =>
    match pyIdx2 ((st.count >>> 63 : ℕ) : ℤ) with
    | none => .error .indexError
    | some j =>
      match AtomicDouble.add (st.data j).sum amount with
      | .error e => .error e
      | .ok s =>
        match AtomicUInt64.add (st.data j).count 1 with
        | .error e => .error e
        | .ok cnt => .ok { st.setData j ⟨s, cnt⟩ with count := c' }

/-- Embedding of `Summary._sample` (the body under the sample lock): flip the
hot bit with `self._count.add(1 << 63, raise_on_overflow=False)` which
returns the prior value `c`; `hot = self._data[~c >> 63]` (Python bitwise
complement then arithmetic shift, giving a negative list index) and
`cold = self._data[c >> 63]`; mask the ticket with `genmask(62, 0)`; the
quiesce loop `while cold.count.get() != count` either passes immediately or,
sequentially, never terminates (modelled as `none`); then read the cold
totals, `hot.count.add(count)`, `hot.sum.add(sum)`, zero the cold buffer.
Returns the emitted `('_count', count)` and `('_sum', sum)` values with the
new state. -/
def Summary.sample (st : SummarySt) : Option ((ℕ × PyFloat) × SummarySt) :=
  let c := st.count
  let c' := AtomicUInt64.addWrap c (1 <<< 63)
  match pyIdx2 (Int.shiftRight (Int.lnot (c : ℤ)) 63), pyIdx2 ((c >>> 63 : ℕ) : ℤ) with
  | some hi, some ci =>
    let cnt := c &&& genmask 62 0
    if (st.data ci).count ≠ cnt then none
    else
      let s := (st.data ci).sum
      match AtomicUInt64.add (st.data hi).count cnt, AtomicDouble.add (st.data hi).sum s with
      | .ok hc, .ok hs =>
        some ((cnt, s), { (st.setData hi ⟨hs, hc⟩).setData ci ⟨.fin 0, 0⟩ with count := c' })
      | _, _ => none
  | _, _ => none

/-- A sequential history of Summary operations. -/
inductive SummaryOp
  | observe (amount : PyFloat)
  | sample
deriving DecidableEq, Repr

/-- Run a history from a state, collecting the `(count, sum)` pair emitted by
each `_sample`; `none` when any step raises or spins forever. -/
def Summary.run : SummarySt → List SummaryOp → Option (List (ℕ × PyFloat) × SummarySt)
  | st, [] => some ([], st)
  | st, .observe a :: rest =>
    match Summary.observe st a with
    | .error _ => none
    | .ok st' => Summary.run st' rest
  | st, .sample :: rest =>
    match Summary.sample st with
    | none => none
    | some (em, st') =>
      match Summary.run st' rest with
      | none => none
      | some (ems, stf) => some (em :: ems, stf)

/-- Number of `observe` steps in a history. -/
def countObserves : List SummaryOp → ℕ
  | [] => 0
  | .observe _ :: rest => countObserves rest + 1
  | .sample :: rest => countObserves rest

/-- Number of `_sample` steps in a history. -/
def countSamples : List SummaryOp → ℕ
  | [] => 0
  | .observe _ :: rest => countSamples rest
  | .sample :: rest => countSamples rest + 1

/-- The rational carried by a finite `PyFloat` (0 on the special values,
which the theorems exclude). -/
def PyFloat.toQ : PyFloat → ℚ
  | .fin q => q
  | _ => 0

/-- Exact sum of the observed amounts of a history. -/
def sumObserves : List SummaryOp → ℚ
  | [] => 0
  | .observe a :: rest => a.toQ + sumObserves rest
  | .sample :: rest => sumObserves rest

/-- All observed amounts of a history are finite doubles. -/
def obsFinite : List SummaryOp → Bool
  | [] => true
  | .observe a :: rest => a.isFinite && obsFinite rest
  | .sample :: rest => obsFinite rest

/-- The emissions the spec predicts, accumulating from `n` prior observes
with prior sum `s`: each `_sample` emits the number of observes made so far
and their exact running sum. -/
def expectedEms : ℕ → ℚ → List SummaryOp → List (ℕ × PyFloat)
  | _, _, [] => []
  | n, s, .observe a :: rest => expectedEms (n + 1) (s + a.toQ) rest
  | n, s, .sample :: rest => (n, .fin s) :: expectedEms n s rest

/-- The buffer currently receiving writes (bit 63 of `_count` selects it). -/
def SummarySt.hotBuf (st : SummarySt) : SummaryData :=
  if st.count >>> 63 = 1 then st.d1 else st.d0

/-- The buffer not currently receiving writes. -/
def SummarySt.coldBuf (st : SummarySt) : SummaryData :=
  if st.count >>> 63 = 1 then st.d0 else st.d1

/-- The mask `genmask(62, 0)` keeps the low 63 bits: AND-ing with it is
reduction modulo `2^63`. -/
theorem land_genmask (x : ℕ) : x &&& genmask 62 0 = x % 2 ^ 63 := by
  have hg : genmask 62 0 = 2 ^ 63 - 1 := by norm_num [genmask]
  rw [hg]
  apply Nat.eq_of_testBit_eq
  intro i
  rw [Nat.testBit_land, Nat.testBit_mod_two_pow, Nat.testBit_two_pow_sub_one]
  exact Bool.and_comm _ _

/-- Bit 63 of a ticket value `n + b * 2^63` with small `n` is `b`. -/
theorem count_shift {n : ℕ} (b : ℕ) (hn : n < 2 ^ 63) : (n + b * 2 ^ 63) >>> 63 = b := by
  rw [Nat.shiftRight_eq_div_pow,
    Nat.add_mul_div_right _ _ (Nat.pos_pow_of_pos 63 (by norm_num)),
    Nat.div_eq_of_lt hn, Nat.zero_add]

/-- Python's `~c >> 63` on a non-negative `c`: complement then arithmetic
shift, structurally `-[(c >> 63) + 1]`. -/
theorem lnot_shiftRight (c : ℕ) :
    Int.shiftRight (Int.lnot (c : ℤ)) 63 = Int.negSucc (c >>> 63) := by
  have h1 : Int.lnot (c : ℤ) = Int.negSucc c := rfl
  rw [h1]
  exact Int.shiftRight_negSucc c 63

/-- The sequential invariant of the double-buffer scheme after `n` observes
totalling `s` and `k` samples: the ticket counter holds `n` plus the hot bit,
the hot buffer `data[k % 2]` holds the running totals, and the cold buffer is
zero. -/
def SummaryInv (n k : ℕ) (s : ℚ) (st : SummarySt) : Prop :=
  st.count = n + k % 2 * 2 ^ 63 ∧
  (k % 2 = 0 → st.d0 = ⟨.fin s, n⟩ ∧ st.d1 = ⟨.fin 0, 0⟩) ∧
  (k % 2 = 1 → st.d1 = ⟨.fin s, n⟩ ∧ st.d0 = ⟨.fin 0, 0⟩)

/-- `observe` of a finite amount preserves the invariant, bumping the count
and the sum. -/
theorem Summary.observe_step {n k : ℕ} {s : ℚ} {st : SummarySt}
    (hInv : SummaryInv n k s st) (hn : n + 1 < 2 ^ 63) (q : ℚ) :
    ∃ st', Summary.observe st (.fin q) = .ok st' ∧ SummaryInv (n + 1) k (s + q) st' := by
  obtain ⟨hc, h0, h1⟩ := hInv
  have hb : k % 2 = 0 ∨ k % 2 = 1 := Nat.mod_two_eq_zero_or_one k
  have hadd1 : AtomicUInt64.add st.count 1 = .ok (st.count + 1) := by
    unfold AtomicUInt64.add
    rw [if_pos]
    rcases hb with hb | hb <;> rw [hc, hb] <;> omega
  have hshift : st.count >>> 63 = k % 2 := by
    rw [hc]
    exact count_shift (k % 2) (by omega)
  have hsum : ∀ s' : ℚ, AtomicDouble.add (PyFloat.fin s') (.fin q) = .ok (.fin (s' + q)) := by
    intro s'
    simp [AtomicDouble.add, PyFloat.add, PyFloat.isNan]
  have hcnt : AtomicUInt64.add n 1 = .ok (n + 1) := by
    unfold AtomicUInt64.add
    rw [if_pos (by omega)]
  rcases hb with hb | hb
  · obtain ⟨hd0, hd1⟩ := h0 hb
    have hdata : st.data 0 = ⟨.fin s, n⟩ := hd0
    refine ⟨{ st.setData 0 ⟨.fin (s + q), n + 1⟩ with count := st.count + 1 }, ?_, ?_⟩
    · simp only [Summary.observe, hadd1, hshift, hb, Nat.cast_zero]
      have hj : pyIdx2 0 = some 0 := by decide
      simp only [hj, hdata, hsum s, hcnt]
    · refine ⟨?_, fun h => ?_, fun h => by omega⟩
      · simp only [SummarySt.setData]
        rw [hc, hb]
        ring
      · exact ⟨rfl, hd1⟩
  · obtain ⟨hd1, hd0⟩ := h1 hb
    have hdata : st.data 1 = ⟨.fin s, n⟩ := hd1
    refine ⟨{ st.setData 1 ⟨.fin (s + q), n + 1⟩ with count := st.count + 1 }, ?_, ?_⟩
    · simp only [Summary.observe, hadd1, hshift, hb, Nat.cast_one]
      have hj : pyIdx2 1 = some 1 := by decide
      simp only [hj, hdata, hsum s, hcnt]
    · refine ⟨?_, fun h => by omega, fun h => ?_⟩
      · simp only [SummarySt.setData]
        rw [hc, hb]
        ring
      · exact ⟨rfl, hd0⟩

set_option maxRecDepth 4000 in
/-- `_sample` preserves the invariant, flipping the hot buffer; it emits the
running count and sum, leaving the freshly cold buffer zeroed. -/
theorem Summary.sample_step {n k : ℕ} {s : ℚ} {st : SummarySt}
    (hInv : SummaryInv n k s st) (hn : n < 2 ^ 63) :
    ∃ st', Summary.sample st = some ((n, .fin s), st') ∧ SummaryInv n (k + 1) s st' := by
  obtain ⟨hc, h0, h1⟩ := hInv
  have h63 : (1 <<< 63 : ℕ) = 2 ^ 63 := by
    rw [Nat.shiftLeft_eq, Nat.one_mul]
  have hmask : st.count &&& genmask 62 0 = n := by
    rw [land_genmask, hc, Nat.add_mul_mod_self_right, Nat.mod_eq_of_lt hn]
  have hds : AtomicDouble.add (PyFloat.fin 0) (.fin s) = .ok (.fin (0 + s)) := by
    simp [AtomicDouble.add, PyFloat.add, PyFloat.isNan]
  have hmerge : AtomicUInt64.add (0 : ℕ) n = .ok n := by
    unfold AtomicUInt64.add
    rw [if_pos (show (0 : ℕ) + n < 2 ^ 64 by omega)]
    rw [Nat.zero_add]
  rcases Nat.mod_two_eq_zero_or_one k with hb | hb
  · obtain ⟨hd0, hd1⟩ := h0 hb
    have hcount : st.count = n := by rw [hc, hb]; ring
    have hsr : st.count >>> 63 = 0 := by
      rw [hcount, Nat.shiftRight_eq_div_pow, Nat.div_eq_of_lt hn]
    have hhi : pyIdx2 (Int.shiftRight (Int.lnot (st.count : ℤ)) 63) = some 1 := by
      rw [lnot_shiftRight, hsr]
      decide
    have hci : pyIdx2 ((st.count >>> 63 : ℕ) : ℤ) = some 0 := by
      rw [hsr]
      decide
    have hwrap : AtomicUInt64.addWrap st.count (1 <<< 63) = n + 2 ^ 63 := by
      rw [h63, hcount, AtomicUInt64.addWrap, Nat.mod_eq_of_lt (by omega)]
    refine ⟨{ (st.setData 1 ⟨.fin (0 + s), n⟩).setData 0 ⟨.fin 0, 0⟩ with count := n + 2 ^ 63 },
      ?_, ?_⟩
    · simp only [Summary.sample, hwrap, hhi, hci, hmask]
      have hdata0 : st.data 0 = ⟨.fin s, n⟩ := hd0
      have hdata1 : st.data 1 = ⟨.fin 0, 0⟩ := hd1
      simp only [hdata0, hdata1]
      rw [if_neg (show ¬ (n ≠ n) from fun h => h rfl)]
      simp only [hmerge, hds]
    · have hk1 : (k + 1) % 2 = 1 := by omega
      refine ⟨by simp [hk1], fun h => by omega, fun h => ?_⟩
      constructor
      · simp [SummarySt.setData, zero_add]
      · simp [SummarySt.setData]
  · obtain ⟨hd1, hd0⟩ := h1 hb
    have hcount : st.count = n + 2 ^ 63 := by rw [hc, hb]; ring
    have hsr : st.count >>> 63 = 1 := by
      rw [hcount]
      exact count_shift 1 hn
    have hhi : pyIdx2 (Int.shiftRight (Int.lnot (st.count : ℤ)) 63) = some 0 := by
      rw [lnot_shiftRight, hsr]
      decide
    have hci : pyIdx2 ((st.count >>> 63 : ℕ) : ℤ) = some 1 := by
      rw [hsr]
      decide
    have hwrap : AtomicUInt64.addWrap st.count (1 <<< 63) = n := by
      rw [h63, hcount, AtomicUInt64.addWrap]
      have he : n + 2 ^ 63 + 2 ^ 63 = n + 2 ^ 64 := by omega
      rw [he, Nat.add_mod_right, Nat.mod_eq_of_lt (by omega)]
    refine ⟨{ (st.setData 0 ⟨.fin (0 + s), n⟩).setData 1 ⟨.fin 0, 0⟩ with count := n }, ?_, ?_⟩
    · simp only [Summary.sample, hwrap, hhi, hci, hmask]
      have hdata0 : st.data 0 = ⟨.fin 0, 0⟩ := hd0
      have hdata1 : st.data 1 = ⟨.fin s, n⟩ := hd1
      simp only [hdata0, hdata1]
      rw [if_neg (show ¬ (n ≠ n) from fun h => h rfl)]
      simp only [hmerge, hds]
    · have hk1 : (k + 1) % 2 = 0 := by omega
      refine ⟨by simp [hk1], fun h => ?_, fun h => by omega⟩
      constructor
      · simp [SummarySt.setData, zero_add]
      · simp [SummarySt.setData]

/-- Sequential soundness of the double-buffer protocol: from an invariant
state, any history of fewer than `2^63` total observes with finite amounts
runs without raising or spinning, emits exactly the predicted `(count, sum)`
pairs, and re-establishes the invariant. -/
theorem Summary.run_inv (ops : List SummaryOp) :
    ∀ (n k : ℕ) (s : ℚ) (st : SummarySt), SummaryInv n k s st →
      n + countObserves ops < 2 ^ 63 → obsFinite ops = true →
      ∃ stf, Summary.run st ops = some (expectedEms n s ops, stf) ∧
        SummaryInv (n + countObserves ops) (k + countSamples ops) (s + sumObserves ops) stf := by
  induction ops with
  | nil =>
    intro n k s st hInv hn hf
    refine ⟨st, rfl, ?_⟩
    simpa [countObserves, countSamples, sumObserves] using hInv
  | cons op rest ih =>
    intro n k s st hInv hn hf
    cases op with
    | observe a =>
      have hcons : countObserves (SummaryOp.observe a :: rest) = countObserves rest + 1 := rfl
      have hfa : a.isFinite = true ∧ obsFinite rest = true := by
        simpa [obsFinite, Bool.and_eq_true] using hf
      obtain ⟨q, rfl⟩ : ∃ q, a = .fin q := by
        cases a with
        | fin q => exact ⟨q, rfl⟩
        | inf => exact absurd hfa.1 (by simp [PyFloat.isFinite])
        | ninf => exact absurd hfa.1 (by simp [PyFloat.isFinite])
        | nan => exact absurd hfa.1 (by simp [PyFloat.isFinite])
      obtain ⟨st', hob, hInv'⟩ := Summary.observe_step hInv (by omega) q
      obtain ⟨stf, hrun, hInvf⟩ := ih (n + 1) k (s + q) st' hInv' (by omega) hfa.2
      refine ⟨stf, ?_, ?_⟩
      · simp only [Summary.run, hob, hrun, expectedEms, PyFloat.toQ]
      · have e1 : n + countObserves (SummaryOp.observe (.fin q) :: rest) =
            n + 1 + countObserves rest := by
          rw [hcons]; omega
        have e3 : s + sumObserves (SummaryOp.observe (.fin q) :: rest) =
            s + q + sumObserves rest := by
          show s + ((PyFloat.fin q).toQ + sumObserves rest) = _
          rw [PyFloat.toQ]; ring
        rw [e1, e3]
        exact hInvf
    | sample =>
      have hcons : countObserves (SummaryOp.sample :: rest) = countObserves rest := rfl
      have hfr : obsFinite rest = true := by simpa [obsFinite] using hf
      obtain ⟨st', hsmp, hInv'⟩ := Summary.sample_step hInv (by omega)
      obtain ⟨stf, hrun, hInvf⟩ := ih n (k + 1) s st' hInv' (by omega) hfr
      refine ⟨stf, ?_, ?_⟩
      · simp only [Summary.run, hsmp, hrun, expectedEms]
      · have e2 : k + countSamples (SummaryOp.sample :: rest) = k + 1 + countSamples rest := by
          show k + (countSamples rest + 1) = _
          omega
        rw [e2]
        exact hInvf

/-- The invariant pins the hot buffer to the running totals and the cold
buffer to zero. -/
theorem SummaryInv.hotCold {n k : ℕ} {s : ℚ} {st : SummarySt} (h : SummaryInv n k s st)
    (hn : n < 2 ^ 63) : st.hotBuf = ⟨.fin s, n⟩ ∧ st.coldBuf = ⟨.fin 0, 0⟩ := by
  obtain ⟨hc, h0, h1⟩ := h
  rcases Nat.mod_two_eq_zero_or_one k with hb | hb
  · obtain ⟨hd0, hd1⟩ := h0 hb
    have hsr : st.count >>> 63 = 0 := by
      rw [hc, hb, Nat.zero_mul, Nat.add_zero, Nat.shiftRight_eq_div_pow, Nat.div_eq_of_lt hn]
    simp [SummarySt.hotBuf, SummarySt.coldBuf, hsr, hd0, hd1]
  · obtain ⟨hd1, hd0⟩ := h1 hb
    have hsr : st.count >>> 63 = 1 := by
      rw [hc, hb, Nat.one_mul]
      exact count_shift 1 hn
    simp [SummarySt.hotBuf, SummarySt.coldBuf, hsr, hd0, hd1]

/-- One data buffer of a Histogram (`_HistogramData[n]`): per-bucket
counters, `sum` and `count`. -/
structure HistData where
  buckets : List ℕ
  sum : PyFloat
  count : ℕ
deriving DecidableEq, Repr

/-- Shared state of a `_Histogram[n]` (without the wall-clock `_created`):
the threshold array, the two data buffers, the ticket counter, and the
exemplar slots (stored as `(labels, amount)`; the `time.time()` component is
not modelled). -/
structure HistSt where
  thresholds : List PyFloat
  d0 : HistData
  d1 : HistData
  count : ℕ
  exemplars : List (Option (List (String × String) × PyFloat))
deriving DecidableEq, Repr

/-- Buffer selection. -/
def HistSt.data (st : HistSt) : Fin 2 → HistData
  | 0 => st.d0
  | 1 => st.d1

/-- Buffer update. -/
def HistSt.setData (st : HistSt) : Fin 2 → HistData → HistSt
  | 0, d => { st with d0 := d }
  | 1, d => { st with d1 := d }

/-- Python `bisect.bisect_left` (stdlib, modelled by its documented result on
a sorted list): the first index whose element is not `< x`, i.e. the first
bucket whose upper bound is `>= x` under total comparisons. -/
def bisect_left (a : List PyFloat) (x : PyFloat) : ℕ :=
  (a.takeWhile fun t => t.lt x).length

/-- Embedding of `_Histogram.observe`: validate the exemplar if supplied,
pick the bucket with `bisect_left` over the thresholds, take a ticket
(`self._count.add(1)`), then on the hot buffer `buckets[i].add(1)` (Python
list indexing raises `IndexError` out of range), `sum.add(amount)`,
`count.add(1)`, and finally store a truthy (non-empty) exemplar in slot
`i`.  An exception carries the shared state as already modified at the
moment of the raise. -/
def Histogram.observe (st : HistSt) (amount : PyFloat)
    (exemplar : Option (List (String × String))) : Except (PyErr × HistSt) HistSt :=
  match (match exemplar with | some ex => _validate_exemplar ex | none => .ok ()) with
  | .error e => .error (e, st)
  | .ok _ =>
    let i := bisect_left st.thresholds amount
    match AtomicUInt64.add st.count 1 with
    | .error e => .error (e, st)
    | .ok c' =>
      match pyIdx2 ((st.count >>> 63 : ℕ) : ℤ) with
      | none => .error (.indexError, { st with count := c' })
      | some j =>
        let d := st.data j
        match d.buckets[i]? with
        | none => .error (.indexError, { st with count := c' })
        | some bi =>
          match AtomicUInt64.add bi 1 with
          | .error e => .error (e, { st with count := c' })
          | .ok b' =>
            match AtomicDouble.add d.sum amount with
            | .error e =>
              .error (e, { st.setData j { d with buckets := d.buckets.set i b' } with count := c' })
            | .ok s' =>
              match AtomicUInt64.add d.count 1 with
              | .error e =>
                .error (e, { st.setData j { d with buckets := d.buckets.set i b', sum := s' }
                  with count := c' })
              | .ok cnt' =>
                let st' := { st.setData j ⟨d.buckets.set i b', s', cnt'⟩ with count := c' }
                match exemplar with
                | some ex =>
                  if ex ≠ [] then
                    .ok { st' with exemplars := st'.exemplars.set i (some (ex, amount)) }
                  else .ok st'
                | none => .ok st'

/-- The per-bucket merge loop of `_Histogram._sample`:
`hot.buckets[i].add(bucket)` for each snapshotted cold bucket (`none` on an
overflow or a length mismatch, neither reachable in the runs proved). -/
def mergeBuckets : List ℕ → List ℕ → Option (List ℕ)
  | [], [] => some []
  | h :: hs, c :: cs =>
    match AtomicUInt64.add h c with
    | .error _ => none
    | .ok v =>
      match mergeBuckets hs cs with
      | none => none
      | some vs => some (v :: vs)
  | _, _ => none

/-- `itertools.accumulate`: running prefix sums. -/
def accumulate : ℕ → List ℕ → List ℕ
  | _, [] => []
  | acc, x :: xs => (acc + x) :: accumulate (acc + x) xs

/-- Embedding of `_Histogram._sample` (the body under the sample lock): flip
the hot bit, locate cold and hot buffers as in the Summary, mask the ticket,
quiesce on the cold count (sequentially: pass or hang), snapshot the cold
buckets and sum, merge them into the hot buffer, zero the cold buffer, and
emit the thresholds zipped with the cumulative bucket prefix sums, then
`_sum` and `_count`.  Result: `(bucket samples, sum, count, new state)`. -/
def Histogram.sample (st : HistSt) :
    Option (List (PyFloat × ℕ) × PyFloat × ℕ × HistSt) :=
  let c := st.count
  let c' := AtomicUInt64.addWrap c (1 <<< 63)
  match pyIdx2 (Int.shiftRight (Int.lnot (c : ℤ)) 63), pyIdx2 ((c >>> 63 : ℕ) : ℤ) with
  | some hi, some ci =>
    let cnt := c &&& genmask 62 0
    if (st.data ci).count ≠ cnt then none
    else
      let buckets := (st.data ci).buckets
      let s := (st.data ci).sum
      match mergeBuckets (st.data hi).buckets buckets with
      | none => none
      | some hb =>
        match AtomicDouble.add (st.data hi).sum s, AtomicUInt64.add (st.data hi).count cnt with
        | .ok hs, .ok hc =>
          some (List.zip st.thresholds (accumulate 0 buckets), s, cnt,
            { (st.setData hi ⟨hb, hs, hc⟩).setData ci
                ⟨List.replicate buckets.length 0, .fin 0, 0⟩ with count := c' })
        | _, _ => none
  | _, _ => none

/-- The default bucket thresholds (`_HistogramFactory.DEFAULT_BUCKETS`), as
exact rationals.  Written with `mkRat`; e.g. `mkRat 5 2` is 2.5. -/
def DEFAULT_BUCKETS : List PyFloat :=
  [.fin (mkRat 5 1000), .fin (mkRat 1 100), .fin (mkRat 25 1000), .fin (mkRat 5 100),
   .fin (mkRat 75 1000), .fin (mkRat 1 10), .fin (mkRat 25 100), .fin (mkRat 5 10),
   .fin (mkRat 75 100), .fin (mkRat 1 1), .fin (mkRat 5 2), .fin (mkRat 5 1),
   .fin (mkRat 15 2), .fin (mkRat 10 1), .inf]

/-- A fresh Histogram with the default buckets: every cell zeroed, one
exemplar slot appended per threshold. -/
def Histogram.initDefault : HistSt :=
  { thresholds := DEFAULT_BUCKETS
    d0 := ⟨List.replicate 15 0, .fin 0, 0⟩
    d1 := ⟨List.replicate 15 0, .fin 0, 0⟩
    count := 0
    exemplars := List.replicate 15 none }

/-- The concrete C5 run: `observe(2); observe(2.5); observe(inf)` then one
`_sample`, on the default buckets. -/
def histRunC5 : Option (List (PyFloat × ℕ) × PyFloat × ℕ × HistSt) :=
  match Histogram.observe Histogram.initDefault (.fin (mkRat 2 1)) none with
  | .error _ => none
  | .ok st1 =>
    match Histogram.observe st1 (.fin (mkRat 5 2)) none with
    | .error _ => none
    | .ok st2 =>
      match Histogram.observe st2 .inf none with
      | .error _ => none
      | .ok st3 => Histogram.sample st3

/-- C5: on a Histogram with the default buckets, `observe(2); observe(2.5);
observe(inf)` places the observations by `bisect_left` at indices 10
(threshold 2.5), 10, and 14 (threshold `inf`), and the following `_sample`
emits cumulative bucket values `0` up to `le = 1.0`, `2` at `le = 2.5`, `2`
at `le = 5.0` (and 7.5, 10) and `3` at `le = inf`, with `_sum = inf` and
`_count = 3`.  (`mkRat 5 2` is 2.5, etc.) -/
theorem histogram_default_C5 :
    bisect_left DEFAULT_BUCKETS (.fin (mkRat 2 1)) = 10 ∧
    bisect_left DEFAULT_BUCKETS (.fin (mkRat 5 2)) = 10 ∧
    bisect_left DEFAULT_BUCKETS .inf = 14 ∧
    histRunC5.map (fun r => (r.1, r.2.1, r.2.2.1)) =
      some ([(.fin (mkRat 5 1000), 0), (.fin (mkRat 1 100), 0), (.fin (mkRat 25 1000), 0),
        (.fin (mkRat 5 100), 0), (.fin (mkRat 75 1000), 0), (.fin (mkRat 1 10), 0),
        (.fin (mkRat 25 100), 0), (.fin (mkRat 5 10), 0), (.fin (mkRat 75 100), 0),
        (.fin (mkRat 1 1), 0), (.fin (mkRat 5 2), 2), (.fin (mkRat 5 1), 2),
        (.fin (mkRat 15 2), 2), (.fin (mkRat 10 1), 2), (.inf, 3)],
        .inf, 3) := by
  refine ⟨by decide, by decide, by decide, ?_⟩
  with_unfolding_all rfl

/-- `_validate_labelname` only ever raises `ValueError`. -/
theorem _validate_labelname_error {s : String} {e : PyErr}
    (h : _validate_labelname s = .error e) : e = .valueError := by
  unfold _validate_labelname at h
  split at h
  · exact (Except.error.inj h).symm
  · split at h
    · exact (Except.error.inj h).symm
    · exact Except.noConfusion h

/-- The exemplar validation loop only ever raises `ValueError`. -/
theorem _validate_exemplar_loop_error {ex : List (String × String)} :
    ∀ {cp : ℕ} {e : PyErr}, _validate_exemplar_loop ex cp = .error e → e = .valueError := by
  induction ex with
  | nil =>
    intro cp e h
    exact Except.noConfusion h
  | cons kv rest ih =>
    intro cp e h
    obtain ⟨k, v⟩ := kv
    unfold _validate_exemplar_loop at h
    cases hv : _validate_labelname k with
    | error e' =>
      rw [hv] at h
      rw [← Except.error.inj h]
      exact _validate_labelname_error hv
    | ok u =>
      rw [hv] at h
      exact ih h

/-- When the loop succeeds, every key matched the label rule and the result
is the initial total plus all key/value code points. -/
theorem _validate_exemplar_loop_ok {ex : List (String × String)} :
    ∀ {cp r : ℕ}, _validate_exemplar_loop ex cp = .ok r →
      r = cp + (ex.map fun kv => kv.1.length + kv.2.length).sum ∧
      ∀ kv ∈ ex, labelNameMatch kv.1 = true := by
  induction ex with
  | nil =>
    intro cp r h
    refine ⟨?_, by simp⟩
    have : cp = r := Except.ok.inj h
    simp [← this]
  | cons kv rest ih =>
    intro cp r h
    obtain ⟨k, v⟩ := kv
    unfold _validate_exemplar_loop at h
    cases hv : _validate_labelname k with
    | error e' =>
      rw [hv] at h
      exact Except.noConfusion h
    | ok u =>
      rw [hv] at h
      obtain ⟨hr, hall⟩ := ih h
      have hmatch : labelNameMatch k = true := by
        by_contra hbad
        unfold _validate_labelname at hv
        rw [if_pos (by simpa using hbad)] at hv
        exact Except.noConfusion hv
      refine ⟨?_, ?_⟩
      · simp only [List.map_cons, List.sum_cons, hr]
        omega
      · intro kv hkv
        rcases List.mem_cons.mp hkv with rfl | hkv
        · exact hmatch
        · exact hall kv hkv

/-- A bad exemplar — some key failing the label-name rule, or more than 128
total code points — always makes `_validate_exemplar` raise `ValueError`. -/
theorem validate_exemplar_bad (ex : List (String × String))
    (hbad : (∃ kv ∈ ex, labelNameMatch kv.1 = false) ∨
      128 < (ex.map fun kv => kv.1.length + kv.2.length).sum) :
    _validate_exemplar ex = .error .valueError := by
  unfold _validate_exemplar
  cases hl : _validate_exemplar_loop ex 0 with
  | error e =>
    rw [_validate_exemplar_loop_error hl]
  | ok cp =>
    obtain ⟨hr, hall⟩ := _validate_exemplar_loop_ok hl
    rcases hbad with ⟨kv, hkv, hbadname⟩ | hsum
    · rw [hall kv hkv] at hbadname
      exact Bool.noConfusion hbadname
    · show (if 128 < cp then (Except.error PyErr.valueError : Except PyErr Unit) else .ok ()) =
        .error .valueError
      rw [if_pos (show 128 < cp by omega)]

/-- C9: a `Counter.inc` or `_Histogram.observe` call with an exemplar whose
keys fail the label-name rule, or whose keys and values total more than 128
code points, raises `ValueError` and leaves the shared state — total,
buckets, sums, counts, exemplar cells — exactly as it was (the validation
runs before any update). -/
theorem exemplar_validation_C9 (ex : List (String × String))
    (hbad : (∃ kv ∈ ex, labelNameMatch kv.1 = false) ∨
      128 < (ex.map fun kv => kv.1.length + kv.2.length).sum)
    (st : CounterSt) (amount : ℤ) (h0 : 0 ≤ amount) (hst : HistSt) (a : PyFloat) :
    Counter.inc st amount (some ex) = (some .valueError, st) ∧
    Histogram.observe hst a (some ex) = .error (.valueError, hst) := by
  have hval := validate_exemplar_bad ex hbad
  constructor
  · unfold Counter.inc
    rw [if_neg (not_lt.mpr h0)]
    simp only [hval]
  · unfold Histogram.observe
    simp only [hval]

/-- Witness for C9: the exemplar `{"0bad": "x"}` (key starts with a digit)
on a fresh counter incremented by 1 and a default-bucket histogram. -/
theorem exemplar_validation_C9_witness :
    Counter.inc ⟨0, 0, []⟩ 1 (some [("0bad", "x")]) = (some .valueError, ⟨0, 0, []⟩) ∧
    Histogram.observe Histogram.initDefault (.fin (mkRat 2 1)) (some [("0bad", "x")]) =
      .error (.valueError, Histogram.initDefault) :=
  exemplar_validation_C9 [("0bad", "x")]
    (Or.inl ⟨("0bad", "x"), List.mem_cons_self _ _, by decide⟩)
    ⟨0, 0, []⟩ 1 (by norm_num) Histogram.initDefault (.fin (mkRat 2 1))

/-- Lexicographic order on code-point lists, as Python string `<=`. -/
def charListLe : List Char → List Char → Bool
  | [], _ => true
  | _ :: _, [] => false
  | c :: cs, d :: ds => if c < d then true else if d < c then false else charListLe cs ds

/-- Python `<=` on strings. -/
def strLe (a b : String) : Bool := charListLe a.data b.data

/-- Insertion step of a stable sort. -/
def insertSorted (x : String) : List String → List String
  | [] => [x]
  | y :: ys => if strLe x y then x :: y :: ys else y :: insertSorted x ys

/-- Python `sorted` on a list of strings (stable comparison sort, modelled
as insertion sort). -/
def pySorted : List String → List String
  | [] => []
  | x :: xs => insertSorted x (pySorted xs)

/-- Lookup in a keyword-argument dict, modelled as an item list. -/
def kwLookup (n : String) : List (String × String) → Option String
  | [] => none
  | (k, v) :: rest => if k = n then some v else kwLookup n rest

/-- Lookup in an insertion-ordered mapping from label tuples to child ids. -/
def alookup (key : List String) : List (List String × ℕ) → Option ℕ
  | [] => none
  | (k, v) :: rest => if k = key then some v else alookup key rest

/-- Embedding of `LabeledCollector._label_values`: reject passing both
positional and keyword labels; for keywords, require the sorted key list to
equal the sorted label names and read the values in label-name order; for
positionals, require matching arity.  Label values are already strings here,
so `str()` and `sys.intern` are identities. -/
def _label_values (labelnames : List String) (values : List String)
    (labels : List (String × String)) : Except PyErr (List String) :=
  if values ≠ [] ∧ labels ≠ [] then .error .valueError
  else if labels ≠ [] then
    if pySorted (labels.map Prod.fst) ≠ pySorted labelnames then .error .valueError
    else .ok (labelnames.map fun n => (kwLookup n labels).getD "")
  else if values.length ≠ labelnames.length then .error .valueError
  else .ok values

/-- State of a `LabeledCollector`: the arena-resident shared map `_metrics`
(label tuple → child), the per-process cache `_cache`, the id of the next
freshly allocated child `Box[metric]`, and each child counter's total by id.
Ids stand for arena-resident metric instances: equal ids are the same
shared metric. -/
structure LCSt where
  shared : List (List String × ℕ)
  cache : List (List String × ℕ)
  nextId : ℕ
  totals : List ℕ
deriving DecidableEq, Repr

/-- A freshly constructed labeled collector: both maps empty. -/
def LCSt.fresh : LCSt := ⟨[], [], 0, []⟩

/-- Embedding of `LabeledCollector.labels` as one sequential step: resolve
the label values; on a resolution error the state is untouched (no child is
created).  Otherwise look up the local cache, on a miss the shared map under
the shared lock, and on a further miss allocate a new child metric and
insert it; back-fill the cache. -/
def LCSt.labels (labelnames : List String) (st : LCSt) (values : List String)
    (kw : List (String × String)) : Except PyErr ℕ × LCSt :=
  match _label_values labelnames values kw with
  | .error e => (.error e, st)
  | .ok key =>
    match alookup key st.cache with
    | some m => (.ok m, st)
    | none =>
      match alookup key st.shared with
      | some m => (.ok m, { st with cache := st.cache ++ [(key, m)] })
      | none =>
        (.ok st.nextId,
          { shared := st.shared ++ [(key, st.nextId)],
            cache := st.cache ++ [(key, st.nextId)],
            nextId := st.nextId + 1,
            totals := st.totals ++ [0] })

/-- `collector.labels(...).inc()`: an atomic add of 1 on the child's total. -/
def LCSt.incChild (st : LCSt) (id : ℕ) : Except PyErr LCSt :=
  match st.totals[id]? with
  | none => .error .indexError
  | some t =>
    match AtomicUInt64.add t 1 with
    | .error e => .error e
    | .ok t' => .ok { st with totals := st.totals.set id t' }

/-- The sampled `_total` of the child registered for a label tuple. -/
def LCSt.sampleAt (st : LCSt) (key : List String) : Option ℕ :=
  (alookup key st.shared).bind fun id => st.totals[id]?

/-- C7: on a counter with label names `['l']`, `labels('x')` and
`labels(l='x')` resolve to the same label tuple and hence the same single
child instance (id 0; the keyword call is a cache hit that changes
nothing), so one `inc()` through each form yields a sampled value of 2 at
`{l: 'x'}`; `labels()` (no arguments) and `labels('a', 'b')` (wrong arity)
both raise `ValueError` leaving the maps, the id counter and the totals
untouched — no child is created. -/
theorem labels_scenario_C7 :
    _label_values ["l"] ["x"] [] = .ok ["x"] ∧
    _label_values ["l"] [] [("l", "x")] = .ok ["x"] ∧
    LCSt.labels ["l"] LCSt.fresh ["x"] [] = (.ok 0, ⟨[(["x"], 0)], [(["x"], 0)], 1, [0]⟩) ∧
    LCSt.incChild ⟨[(["x"], 0)], [(["x"], 0)], 1, [0]⟩ 0 =
      .ok ⟨[(["x"], 0)], [(["x"], 0)], 1, [1]⟩ ∧
    LCSt.labels ["l"] ⟨[(["x"], 0)], [(["x"], 0)], 1, [1]⟩ [] [("l", "x")] =
      (.ok 0, ⟨[(["x"], 0)], [(["x"], 0)], 1, [1]⟩) ∧
    LCSt.incChild ⟨[(["x"], 0)], [(["x"], 0)], 1, [1]⟩ 0 =
      .ok ⟨[(["x"], 0)], [(["x"], 0)], 1, [2]⟩ ∧
    LCSt.sampleAt ⟨[(["x"], 0)], [(["x"], 0)], 1, [2]⟩ ["x"] = some 2 ∧
    LCSt.labels ["l"] ⟨[(["x"], 0)], [(["x"], 0)], 1, [2]⟩ [] [] =
      (.error .valueError, ⟨[(["x"], 0)], [(["x"], 0)], 1, [2]⟩) ∧
    LCSt.labels ["l"] ⟨[(["x"], 0)], [(["x"], 0)], 1, [2]⟩ ["a", "b"] [] =
      (.error .valueError, ⟨[(["x"], 0)], [(["x"], 0)], 1, [2]⟩) := by
  decide

/-- State of an `Enum` metric: the (pickled, process-local) `states` list
and the shared `AtomicUInt64` holding the selected index. -/
structure EnumSt where
  states : List String
  value : ℕ
deriving DecidableEq, Repr

/-- Modelled from the spec: the metric-name rule checked at construction is
prometheus_client's `METRIC_NAME_RE`, the anchored pattern
`[a-zA-Z_:][a-zA-Z0-9_:]*` (an external library constant). -/
def metricNameMatch (s : String) : Bool :=
  match s.data with
  | [] => false
  | c :: cs =>
    (isAsciiLetter c || c = '_' || c = ':') &&
      cs.all (fun d => isAsciiLetter d || isAsciiDigit d || d = '_' || d = ':')

/-- Embedding of the construction path of an unlabeled `Enum` metric
(`CollectorFactory.__call__` with empty namespace, subsystem and unit,
followed by `Enum.__init__(mem, states)`): the factory validates the metric
name, and `Enum.__init__` stores `states` as-is — it contains no check of
`states` at all, so any list (including the empty one) is accepted; the
backing atomic starts at index 0. -/
def Enum.construct (name : String) (states : List String) : Except PyErr EnumSt :=
  if ¬ metricNameMatch name then .error .valueError
  else .ok ⟨states, 0⟩

/-- Python `list.index`, returning the first position of an element. -/
def pyIndex (s : String) : List String → Option ℕ
  | [] => none
  | x :: xs => if x = s then some 0 else (pyIndex s xs).map (· + 1)

/-- Embedding of `Enum.state`: `self._value.set(self._states.index(state))`;
`list.index` raises `ValueError` for an unknown state. -/
def EnumSt.state (st : EnumSt) (s : String) : Except PyErr EnumSt :=
  match pyIndex s st.states with
  | none => .error .valueError
  | some i => .ok { st with value := i }

/-- Embedding of `Enum._sample`: one sample per declared state, with value 1
exactly at the selected index. -/
def EnumSt.sample (st : EnumSt) : List (String × ℕ) :=
  st.states.enum.map fun p => (p.2, if p.1 = st.value then 1 else 0)

/-- C8 (code bug): constructing an Enum metric with an EMPTY states list
raises nothing — `Enum('e', 'help', states=[])` succeeds, storing the empty
list (and sampling then emits no samples at all), although the spec lists
"empty enum states" among the configuration errors to be raised at
construction time. -/
theorem enum_empty_states_C8 :
    Enum.construct "e" [] = .ok ⟨[], 0⟩ ∧
    EnumSt.sample ⟨[], 0⟩ = [] ∧
    Enum.construct "e" ["a", "b"] = .ok ⟨["a", "b"], 0⟩ := by
  decide

/-- The buffer of a Histogram currently receiving writes (bit 63 of
`_count` selects it). -/
def HistSt.hotBuf (st : HistSt) : HistData :=
  if st.count >>> 63 = 1 then st.d1 else st.d0

/-- The Histogram buffer not currently receiving writes. -/
def HistSt.coldBuf (st : HistSt) : HistData :=
  if st.count >>> 63 = 1 then st.d0 else st.d1

/-- A fresh `_Histogram[len T]` with thresholds `T`, as built by
`_Histogram.__init__`: zeroed ctypes cells and one exemplar slot appended
per threshold. -/
def HistSt.initWith (T : List PyFloat) : HistSt :=
  { thresholds := T
    d0 := ⟨List.replicate T.length 0, .fin 0, 0⟩
    d1 := ⟨List.replicate T.length 0, .fin 0, 0⟩
    count := 0
    exemplars := List.replicate T.length none }

/-- Run a history of `observe`/`_sample` steps on a Histogram (observes
without exemplars), collecting the `('_count', '_sum')` pair emitted by each
`_sample`; `none` when any step raises or spins forever. -/
def Histogram.run : HistSt → List SummaryOp → Option (List (ℕ × PyFloat) × HistSt)
  | st, [] => some ([], st)
  | st, .observe a :: rest =>
    match Histogram.observe st a none with
    | .error _ => none
    | .ok st' => Histogram.run st' rest
  | st, .sample :: rest =>
    match Histogram.sample st with
    | none => none
    | some (_, s, cnt, st') =>
      match Histogram.run st' rest with
      | none => none
      | some (ems, stf) => some ((cnt, s) :: ems, stf)

/-- Python float `inf` is never `<` anything. -/
theorem PyFloat.inf_lt (x : PyFloat) : PyFloat.lt .inf x = false := by
  cases x <;> rfl

/-- On a threshold list ending in `+inf` — which `_HistogramFactory.__call__`
guarantees by appending `inf` — `bisect_left` always lands strictly inside
the list. -/
theorem bisect_lt_length : ∀ {T : List PyFloat}, T.getLast? = some .inf →
    ∀ x, bisect_left T x < T.length := by
  intro T
  induction T with
  | nil =>
    intro h
    exact absurd h (by simp)
  | cons t ts ih =>
    intro h x
    cases ts with
    | nil =>
      have ht : t = .inf := by simpa using h
      subst ht
      simp [bisect_left, List.takeWhile, PyFloat.inf_lt]
    | cons u us =>
      have h' : (u :: us).getLast? = some .inf := by
        rw [← List.getLast?_cons_cons]
        exact h
      have hrec := ih h' x
      unfold bisect_left at hrec ⊢
      rw [List.takeWhile_cons]
      by_cases hlt : PyFloat.lt t x
      · rw [if_pos hlt]
        simp only [List.length_cons] at hrec ⊢
        omega
      · rw [if_neg hlt]
        simp

/-- Pointwise merging a cold snapshot into a zeroed hot buffer yields the
snapshot: each per-bucket add is `0 + b`, in range. -/
theorem mergeBuckets_zero : ∀ (bs : List ℕ), (∀ x ∈ bs, x < 2 ^ 64) →
    mergeBuckets (List.replicate bs.length 0) bs = some bs := by
  intro bs
  induction bs with
  | nil =>
    intro h
    rfl
  | cons b rest ih =>
    intro h
    have hadd : AtomicUInt64.add 0 b = .ok b := by
      unfold AtomicUInt64.add
      rw [if_pos (show 0 + b < 2 ^ 64 by
        have := h b (List.mem_cons_self b rest); omega), Nat.zero_add]
    have hrest := ih (fun x hx => h x (List.mem_cons_of_mem b hx))
    simp only [List.length_cons, List.replicate_succ, mergeBuckets, hadd, hrest]

/-- The sequential invariant of the Histogram double-buffer scheme after `n`
observes totalling `s` with per-bucket counts `bs`, and `k` samples: the
thresholds are untouched, the ticket counter holds `n` plus the hot bit, the
hot buffer `data[k % 2]` holds the running totals, and the cold buffer is
entirely zero. -/
def HistInv (T : List PyFloat) (n k : ℕ) (s : ℚ) (bs : List ℕ) (st : HistSt) : Prop :=
  st.thresholds = T ∧
  st.count = n + k % 2 * 2 ^ 63 ∧
  bs.length = T.length ∧
  (∀ x ∈ bs, x ≤ n) ∧
  (k % 2 = 0 → st.d0 = ⟨bs, .fin s, n⟩ ∧ st.d1 = ⟨List.replicate bs.length 0, .fin 0, 0⟩) ∧
  (k % 2 = 1 → st.d1 = ⟨bs, .fin s, n⟩ ∧ st.d0 = ⟨List.replicate bs.length 0, .fin 0, 0⟩)

set_option maxRecDepth 4000 in
/-- `_Histogram.observe` of a finite amount (no exemplar) preserves the
invariant, bumping the `bisect_left` bucket, the count and the sum. -/
theorem Histogram.observe_preserves {T : List PyFloat} {n k : ℕ} {s : ℚ} {bs : List ℕ} {st : HistSt}
    (hInv : HistInv T n k s bs st) (hn : n + 1 < 2 ^ 63) (q : ℚ)
    (hbis : ∀ x, bisect_left T x < T.length) :
    ∃ st' bs', Histogram.observe st (.fin q) none = .ok st' ∧
      HistInv T (n + 1) k (s + q) bs' st' := by
  obtain ⟨hT, hc, hlen, hbnd, h0, h1⟩ := hInv
  have hb2 : k % 2 = 0 ∨ k % 2 = 1 := Nat.mod_two_eq_zero_or_one k
  have hadd1 : AtomicUInt64.add st.count 1 = .ok (st.count + 1) := by
    unfold AtomicUInt64.add
    rw [if_pos]
    rcases hb2 with hb | hb <;> rw [hc, hb] <;> omega
  have hshift : st.count >>> 63 = k % 2 := by
    rw [hc]
    exact count_shift (k % 2) (by omega)
  have hbound : bisect_left T (.fin q) < bs.length := by
    rw [hlen]
    exact hbis (.fin q)
  have hq : bs[bisect_left T (.fin q)]? = some (bs.get ⟨bisect_left T (.fin q), hbound⟩) := by
    rw [List.getElem?_eq_getElem hbound, List.get_eq_getElem]
  have hget : bs.get ⟨bisect_left T (.fin q), hbound⟩ ≤ n := hbnd _ (bs.get_mem _ _)
  have hbadd : AtomicUInt64.add (bs.get ⟨bisect_left T (.fin q), hbound⟩) 1 =
      .ok (bs.get ⟨bisect_left T (.fin q), hbound⟩ + 1) := by
    unfold AtomicUInt64.add
    rw [if_pos (by omega)]
  have hsum : AtomicDouble.add (PyFloat.fin s) (.fin q) = .ok (.fin (s + q)) := by
    simp [AtomicDouble.add, PyFloat.add, PyFloat.isNan]
  have hcadd : AtomicUInt64.add n 1 = .ok (n + 1) := by
    unfold AtomicUInt64.add
    rw [if_pos (by omega)]
  have hmemset : ∀ x ∈ bs.set (bisect_left T (.fin q))
      (bs.get ⟨bisect_left T (.fin q), hbound⟩ + 1), x ≤ n + 1 := by
    intro x hx
    rcases List.mem_or_eq_of_mem_set hx with hx | rfl
    · exact le_trans (hbnd x hx) (by omega)
    · omega
  rcases hb2 with hb | hb
  · obtain ⟨hd0, hd1⟩ := h0 hb
    have hdata : st.data 0 = ⟨bs, .fin s, n⟩ := hd0
    refine ⟨{ st.setData 0 ⟨bs.set (bisect_left T (.fin q))
        (bs.get ⟨bisect_left T (.fin q), hbound⟩ + 1), .fin (s + q), n + 1⟩
        with count := st.count + 1 },
      bs.set (bisect_left T (.fin q)) (bs.get ⟨bisect_left T (.fin q), hbound⟩ + 1), ?_, ?_⟩
    · simp only [Histogram.observe, hT, hadd1, hshift, hb, Nat.cast_zero]
      have hj : pyIdx2 0 = some 0 := by decide
      simp only [hj, hdata, hq, hbadd, hsum, hcadd]
    · refine ⟨?_, ?_, ?_, hmemset, fun h => ?_, fun h => by omega⟩
      · simp only [HistSt.setData]
        exact hT
      · simp only [HistSt.setData]
        rw [hc, hb]
        ring
      · rw [List.length_set]
        exact hlen
      · constructor
        · simp [HistSt.setData]
        · simp only [HistSt.setData, List.length_set]
          exact hd1
  · obtain ⟨hd1, hd0⟩ := h1 hb
    have hdata : st.data 1 = ⟨bs, .fin s, n⟩ := hd1
    refine ⟨{ st.setData 1 ⟨bs.set (bisect_left T (.fin q))
        (bs.get ⟨bisect_left T (.fin q), hbound⟩ + 1), .fin (s + q), n + 1⟩
        with count := st.count + 1 },
      bs.set (bisect_left T (.fin q)) (bs.get ⟨bisect_left T (.fin q), hbound⟩ + 1), ?_, ?_⟩
    · simp only [Histogram.observe, hT, hadd1, hshift, hb, Nat.cast_one]
      have hj : pyIdx2 1 = some 1 := by decide
      simp only [hj, hdata, hq, hbadd, hsum, hcadd]
    · refine ⟨?_, ?_, ?_, hmemset, fun h => by omega, fun h => ?_⟩
      · simp only [HistSt.setData]
        exact hT
      · simp only [HistSt.setData]
        rw [hc, hb]
        ring
      · rw [List.length_set]
        exact hlen
      · constructor
        · simp [HistSt.setData]
        · simp only [HistSt.setData, List.length_set]
          exact hd0

set_option maxRecDepth 4000 in
/-- `_Histogram._sample` preserves the invariant, flipping the hot buffer; it
emits the thresholds zipped with the cumulative bucket counts, the running
sum and count, and leaves the freshly cold buffer zeroed. -/
theorem Histogram.sample_preserves {T : List PyFloat} {n k : ℕ} {s : ℚ} {bs : List ℕ} {st : HistSt}
    (hInv : HistInv T n k s bs st) (hn : n < 2 ^ 63) :
    ∃ st', Histogram.sample st = some (List.zip T (accumulate 0 bs), .fin s, n, st') ∧
      HistInv T n (k + 1) s bs st' := by
  obtain ⟨hT, hc, hlen, hbnd, h0, h1⟩ := hInv
  have h63 : (1 <<< 63 : ℕ) = 2 ^ 63 := by
    rw [Nat.shiftLeft_eq, Nat.one_mul]
  have hmask : st.count &&& genmask 62 0 = n := by
    rw [land_genmask, hc, Nat.add_mul_mod_self_right, Nat.mod_eq_of_lt hn]
  have hds : AtomicDouble.add (PyFloat.fin 0) (.fin s) = .ok (.fin (0 + s)) := by
    simp [AtomicDouble.add, PyFloat.add, PyFloat.isNan]
  have hmc : AtomicUInt64.add (0 : ℕ) n = .ok n := by
    unfold AtomicUInt64.add
    rw [if_pos (show (0 : ℕ) + n < 2 ^ 64 by omega)]
    rw [Nat.zero_add]
  have hmb : mergeBuckets (List.replicate bs.length 0) bs = some bs :=
    mergeBuckets_zero bs (fun x hx => lt_of_le_of_lt (hbnd x hx) (by omega))
  rcases Nat.mod_two_eq_zero_or_one k with hb | hb
  · obtain ⟨hd0, hd1⟩ := h0 hb
    have hcount : st.count = n := by rw [hc, hb]; ring
    have hsr : st.count >>> 63 = 0 := by
      rw [hcount, Nat.shiftRight_eq_div_pow, Nat.div_eq_of_lt hn]
    have hhi : pyIdx2 (Int.shiftRight (Int.lnot (st.count : ℤ)) 63) = some 1 := by
      rw [lnot_shiftRight, hsr]
      decide
    have hci : pyIdx2 ((st.count >>> 63 : ℕ) : ℤ) = some 0 := by
      rw [hsr]
      decide
    have hwrap : AtomicUInt64.addWrap st.count (1 <<< 63) = n + 2 ^ 63 := by
      rw [h63, hcount, AtomicUInt64.addWrap, Nat.mod_eq_of_lt (by omega)]
    refine ⟨{ (st.setData 1 ⟨bs, .fin (0 + s), n⟩).setData 0
        ⟨List.replicate bs.length 0, .fin 0, 0⟩ with count := n + 2 ^ 63 }, ?_, ?_⟩
    · simp only [Histogram.sample, hwrap, hhi, hci, hmask]
      have hdata0 : st.data 0 = ⟨bs, .fin s, n⟩ := hd0
      have hdata1 : st.data 1 = ⟨List.replicate bs.length 0, .fin 0, 0⟩ := hd1
      simp only [hdata0, hdata1]
      rw [if_neg (show ¬ (n ≠ n) from fun h => h rfl)]
      simp only [hmb, hds, hmc, hT]
    · have hk1 : (k + 1) % 2 = 1 := by omega
      refine ⟨by simp [HistSt.setData, hT], ?_, hlen, hbnd, fun h => by omega, fun h => ?_⟩
      · simp only [HistSt.setData]
        rw [hk1]
        ring
      · constructor
        · simp [HistSt.setData, zero_add]
        · simp [HistSt.setData]
  · obtain ⟨hd1, hd0⟩ := h1 hb
    have hcount : st.count = n + 2 ^ 63 := by rw [hc, hb]; ring
    have hsr : st.count >>> 63 = 1 := by
      rw [hcount]
      exact count_shift 1 hn
    have hhi : pyIdx2 (Int.shiftRight (Int.lnot (st.count : ℤ)) 63) = some 0 := by
      rw [lnot_shiftRight, hsr]
      decide
    have hci : pyIdx2 ((st.count >>> 63 : ℕ) : ℤ) = some 1 := by
      rw [hsr]
      decide
    have hwrap : AtomicUInt64.addWrap st.count (1 <<< 63) = n := by
      rw [h63, hcount, AtomicUInt64.addWrap]
      have he : n + 2 ^ 63 + 2 ^ 63 = n + 2 ^ 64 := by omega
      rw [he, Nat.add_mod_right, Nat.mod_eq_of_lt (by omega)]
    refine ⟨{ (st.setData 0 ⟨bs, .fin (0 + s), n⟩).setData 1
        ⟨List.replicate bs.length 0, .fin 0, 0⟩ with count := n }, ?_, ?_⟩
    · simp only [Histogram.sample, hwrap, hhi, hci, hmask]
      have hdata0 : st.data 0 = ⟨List.replicate bs.length 0, .fin 0, 0⟩ := hd0
      have hdata1 : st.data 1 = ⟨bs, .fin s, n⟩ := hd1
      simp only [hdata0, hdata1]
      rw [if_neg (show ¬ (n ≠ n) from fun h => h rfl)]
      simp only [hmb, hds, hmc, hT]
    · have hk1 : (k + 1) % 2 = 0 := by omega
      refine ⟨by simp [HistSt.setData, hT], ?_, hlen, hbnd, fun h => ?_, fun h => by omega⟩
      · simp only [HistSt.setData]
        rw [hk1]
        ring
      · constructor
        · simp [HistSt.setData, zero_add]
        · simp [HistSt.setData]

/-- Sequential soundness of the Histogram double-buffer protocol: on a
threshold list ending in `inf`, any history of fewer than `2^63` total
observes with finite amounts runs without raising or spinning, emits exactly
the predicted `(count, sum)` pairs, and re-establishes the invariant. -/
theorem Histogram.run_preserves {T : List PyFloat} (hlast : T.getLast? = some .inf)
    (ops : List SummaryOp) :
    ∀ (n k : ℕ) (s : ℚ) (bs : List ℕ) (st : HistSt), HistInv T n k s bs st →
      n + countObserves ops < 2 ^ 63 → obsFinite ops = true →
      ∃ bsf stf, Histogram.run st ops = some (expectedEms n s ops, stf) ∧
        HistInv T (n + countObserves ops) (k + countSamples ops) (s + sumObserves ops) bsf stf := by
  induction ops with
  | nil =>
    intro n k s bs st hInv hn hf
    refine ⟨bs, st, rfl, ?_⟩
    simpa [countObserves, countSamples, sumObserves] using hInv
  | cons op rest ih =>
    intro n k s bs st hInv hn hf
    cases op with
    | observe a =>
      have hcons : countObserves (SummaryOp.observe a :: rest) = countObserves rest + 1 := rfl
      have hfa : a.isFinite = true ∧ obsFinite rest = true := by
        simpa [obsFinite, Bool.and_eq_true] using hf
      obtain ⟨q, rfl⟩ : ∃ q, a = .fin q := by
        cases a with
        | fin q => exact ⟨q, rfl⟩
        | inf => exact absurd hfa.1 (by simp [PyFloat.isFinite])
        | ninf => exact absurd hfa.1 (by simp [PyFloat.isFinite])
        | nan => exact absurd hfa.1 (by simp [PyFloat.isFinite])
      obtain ⟨st', bs', hob, hInv'⟩ :=
        Histogram.observe_preserves hInv (by omega) q (fun x => bisect_lt_length hlast x)
      obtain ⟨bsf, stf, hrun, hInvf⟩ := ih (n + 1) k (s + q) bs' st' hInv' (by omega) hfa.2
      refine ⟨bsf, stf, ?_, ?_⟩
      · simp only [Histogram.run, hob, hrun, expectedEms, PyFloat.toQ]
      · have e1 : n + countObserves (SummaryOp.observe (.fin q) :: rest) =
            n + 1 + countObserves rest := by
          rw [hcons]; omega
        have e3 : s + sumObserves (SummaryOp.observe (.fin q) :: rest) =
            s + q + sumObserves rest := by
          show s + ((PyFloat.fin q).toQ + sumObserves rest) = _
          rw [PyFloat.toQ]; ring
        rw [e1, e3]
        exact hInvf
    | sample =>
      have hcons : countObserves (SummaryOp.sample :: rest) = countObserves rest := rfl
      have hfr : obsFinite rest = true := by simpa [obsFinite] using hf
      obtain ⟨st', hsmp, hInv'⟩ := Histogram.sample_preserves hInv (by omega)
      obtain ⟨bsf, stf, hrun, hInvf⟩ := ih n (k + 1) s bs st' hInv' (by omega) hfr
      refine ⟨bsf, stf, ?_, ?_⟩
      · simp only [Histogram.run, hsmp, hrun, expectedEms]
      · have e2 : k + countSamples (SummaryOp.sample :: rest) = k + 1 + countSamples rest := by
          show k + (countSamples rest + 1) = _
          omega
        rw [e2]
        exact hInvf

/-- The Histogram invariant pins the hot buffer to the running totals and
the cold buffer to zero. -/
theorem HistInv.hot_cold {T : List PyFloat} {n k : ℕ} {s : ℚ} {bs : List ℕ} {st : HistSt}
    (h : HistInv T n k s bs st) (hn : n < 2 ^ 63) :
    st.hotBuf = ⟨bs, .fin s, n⟩ ∧ st.coldBuf = ⟨List.replicate T.length 0, .fin 0, 0⟩ := by
  obtain ⟨hT, hc, hlen, hbnd, h0, h1⟩ := h
  rw [← hlen]
  rcases Nat.mod_two_eq_zero_or_one k with hb | hb
  · obtain ⟨hd0, hd1⟩ := h0 hb
    have hsr : st.count >>> 63 = 0 := by
      rw [hc, hb, Nat.zero_mul, Nat.add_zero, Nat.shiftRight_eq_div_pow, Nat.div_eq_of_lt hn]
    simp [HistSt.hotBuf, HistSt.coldBuf, hsr, hd0, hd1]
  · obtain ⟨hd1, hd0⟩ := h1 hb
    have hsr : st.count >>> 63 = 1 := by
      rw [hc, hb, Nat.one_mul]
      exact count_shift 1 hn
    simp [HistSt.hotBuf, HistSt.coldBuf, hsr, hd0, hd1]

/-- C1: on a Summary and on a Histogram (any threshold list ending in `inf`,
as `_HistogramFactory.__call__` guarantees), for every sequential history of
fewer than `2^63` observes with finite amounts interleaved with `_sample`
calls, starting from the fresh shared state: every `_sample` emits exactly
the number of preceding observes as `_count` and their exact running sum as
`_sum`, no step raises or spins, and afterwards the hot buffer holds the
running totals while the cold buffer is entirely zeroed — the double-buffer
protocol loses no updates and double-counts none. -/
theorem summary_histogram_consistent_C1 (ops : List SummaryOp)
    (hn : countObserves ops < 2 ^ 63) (hfin : obsFinite ops = true) :
    (∃ stf, Summary.run SummarySt.init ops = some (expectedEms 0 0 ops, stf) ∧
      stf.hotBuf = ⟨.fin (sumObserves ops), countObserves ops⟩ ∧
      stf.coldBuf = ⟨.fin 0, 0⟩) ∧
    (∀ T : List PyFloat, T.getLast? = some .inf →
      ∃ bsf stf, Histogram.run (HistSt.initWith T) ops = some (expectedEms 0 0 ops, stf) ∧
        stf.hotBuf = ⟨bsf, .fin (sumObserves ops), countObserves ops⟩ ∧
        stf.coldBuf = ⟨List.replicate T.length 0, .fin 0, 0⟩) := by
  constructor
  · have hInit : SummaryInv 0 0 0 SummarySt.init :=
      ⟨rfl, fun _ => ⟨rfl, rfl⟩, fun h => by omega⟩
    obtain ⟨stf, hrun, hInv⟩ := Summary.run_inv ops 0 0 0 SummarySt.init hInit (by omega) hfin
    rw [Nat.zero_add, Nat.zero_add, zero_add] at hInv
    obtain ⟨hhot, hcold⟩ := hInv.hotCold hn
    exact ⟨stf, hrun, hhot, hcold⟩
  · intro T hlast
    have hInitH : HistInv T 0 0 0 (List.replicate T.length 0) (HistSt.initWith T) :=
      ⟨rfl, by simp [HistSt.initWith], by simp,
       fun x hx => le_of_eq (List.eq_of_mem_replicate hx),
       fun _ => ⟨rfl, by simp [HistSt.initWith]⟩, fun h => by omega⟩
    obtain ⟨bsf, stf, hrun, hInv⟩ :=
      Histogram.run_preserves hlast ops 0 0 0 (List.replicate T.length 0) (HistSt.initWith T)
        hInitH (by omega) hfin
    rw [Nat.zero_add, Nat.zero_add, zero_add] at hInv
    obtain ⟨hhot, hcold⟩ := hInv.hot_cold hn
    exact ⟨bsf, stf, hrun, hhot, hcold⟩

/-- Witness for C1: the history `observe 1; _sample; observe 2; _sample`, on
the fresh Summary and on the fresh default-bucket Histogram. -/
theorem summary_histogram_consistent_C1_witness :
    (∃ stf, Summary.run SummarySt.init
          [.observe (.fin 1), .sample, .observe (.fin 2), .sample] =
        some (expectedEms 0 0 [.observe (.fin 1), .sample, .observe (.fin 2), .sample], stf) ∧
      stf.hotBuf = ⟨.fin (sumObserves [.observe (.fin 1), .sample, .observe (.fin 2), .sample]),
        countObserves [.observe (.fin 1), .sample, .observe (.fin 2), .sample]⟩ ∧
      stf.coldBuf = ⟨.fin 0, 0⟩) ∧
    (∃ bsf stf, Histogram.run (HistSt.initWith DEFAULT_BUCKETS)
          [.observe (.fin 1), .sample, .observe (.fin 2), .sample] =
        some (expectedEms 0 0 [.observe (.fin 1), .sample, .observe (.fin 2), .sample], stf) ∧
      stf.hotBuf = ⟨bsf,
        .fin (sumObserves [.observe (.fin 1), .sample, .observe (.fin 2), .sample]),
        countObserves [.observe (.fin 1), .sample, .observe (.fin 2), .sample]⟩ ∧
      stf.coldBuf = ⟨List.replicate DEFAULT_BUCKETS.length 0, .fin 0, 0⟩) :=
  ⟨(summary_histogram_consistent_C1 _ (by norm_num [countObserves]) (by decide)).1,
   (summary_histogram_consistent_C1 _ (by norm_num [countObserves]) (by decide)).2
     DEFAULT_BUCKETS (by decide)⟩
